import Mathlib

/-!
# redux-hook-middleware: the hook registry and the dispatch middleware

A shallow embedding of `src/index.js`.

* The module-level object `hooks` and the supply of fresh symbols form the
  mutable state, threaded explicitly through every operation.
* JavaScript values are the inductive type `Val`; a function object is a
  reference whose behaviour is looked up in an environment `Env`.
* An operation returns a completion (`Except Thrown Val`: a returned value or
  a raised exception) together with the state it leaves behind.
* `hooks` is created by the literal `{}`, so a property read `hooks[k]` that
  finds no own property continues in `Object.prototype`.
-/

namespace HookMiddleware

/-! ## Values -/

/-- JavaScript values. A number is an integer-valued number of magnitude below
`10^21` (its string form is then its decimal form, and `NaN` is absent), a
symbol is the index of its allocation, a function is a reference into the
environment, an array is dense, and an object is the list of its own
enumerable string-keyed data properties in enumeration order. -/
inductive Val where
  | undefined
  | null
  | bool (b : Bool)
  | num (n : Int)
  | str (s : String)
  | sym (uid : Nat)
  | fn (ref : Nat)
  | arr (elems : List Val)
  | obj (props : List (String × Val))

/-- What a `throw` carries: a `TypeError` raised by the runtime itself, or a
value raised by user code. -/
inductive Thrown where
  | typeError
  | raised (v : Val)

/-- A completion: a returned value or a raised exception. -/
abbrev Completion := Except Thrown Val

/-- The `typeof` operator. -/
def typeOf : Val → String
  | .undefined => "undefined"
  | .null => "object"
  | .bool _ => "boolean"
  | .num _ => "number"
  | .str _ => "string"
  | .sym _ => "symbol"
  | .fn _ => "function"
  | .arr _ => "object"
  | .obj _ => "object"

/-- The boolean a value converts to in a condition. -/
def truthy : Val → Bool
  | .undefined => false
  | .null => false
  | .bool b => b
  | .num n => n != 0
  | .str s => s != ""
  | _ => true

/-! ## The registry -/

/-- One element of a list of `hooks`: the object `{ position, id, hook }`
pushed by `registerHook`, whose `position` is a string, whose `id` is a
symbol and whose `hook` is a function. -/
structure HookRecord where
  position : String
  id : Nat
  hook : Nat
  deriving DecidableEq, Repr

/-- The own properties of the object `hooks`: type name and list of records,
in order of creation. -/
abbrev Hooks := List (String × List HookRecord)

/-- The mutable state of the module: the own properties of `hooks` and the
number of symbols allocated so far. -/
structure State where
  hooks : Hooks
  symbols : Nat
  deriving DecidableEq, Repr

/-- The state when the module is loaded: `hooks = {}`. -/
def State.init : State := ⟨[], 0⟩

/-- The string-keyed properties of `Object.prototype`, which the object
literal `{}` inherits. Each holds a function, except `__proto__`, an accessor
that reads as `Object.prototype` itself: every one reads as a truthy value
that has neither a `push` nor a `filter` method. -/
def objectPrototypeKeys : List String :=
  ["constructor", "__defineGetter__", "__defineSetter__", "hasOwnProperty",
   "__lookupGetter__", "__lookupSetter__", "isPrototypeOf",
   "propertyIsEnumerable", "toString", "valueOf", "__proto__", "toLocaleString"]

/-- What the property read `hooks[k]` finds. -/
inductive Slot where
  | own (records : List HookRecord)
  | inherited
  | absent
  deriving DecidableEq, Repr

/-- The property read `hooks[k]` for a string key: an own property first, then
`Object.prototype`, else `undefined`. -/
def getHooks (hooks : Hooks) (k : String) : Slot :=
  match hooks.lookup k with
  | some l => .own l
  | none => if k ∈ objectPrototypeKeys then .inherited else .absent

/-- The assignment `hooks[k] = l` to an existing own property. -/
def setOwn (hooks : Hooks) (k : String) (l : List HookRecord) : Hooks :=
  hooks.map fun e => if e.1 = k then (e.1, l) else e

/-- The statement `delete hooks[k]`. -/
def deleteOwn (hooks : Hooks) (k : String) : Hooks :=
  hooks.filter fun e => e.1 != k

/-- The call `Object.keys(hooks)`. Integer-like keys are enumerated before the
others; the loops of this module treat every key independently. -/
def ownKeys (hooks : Hooks) : List String :=
  hooks.map Prod.fst

/-- The module function `registerHook(position, type, hook)`. -/
def registerHook (position type hook : Val) (s : State) : Completion × State :=
  match position, type, hook with
  | .str p, .str t, .fn f =>
    -- if (!hooks[type]) { hooks[type] = [] }
    let hooks1 : Hooks :=
      match getHooks s.hooks t with
      | .absent => s.hooks ++ [(t, [])]
      | _ => s.hooks
    -- const id = Symbol(type)
    let id := s.symbols
    -- hooks[type].push({ position, id, hook })
    match getHooks hooks1 t with
    | .own l => (.ok (.sym id), ⟨setOwn hooks1 t (l ++ [⟨p, id, f⟩]), id + 1⟩)
    | _ => (.error .typeError, ⟨hooks1, id + 1⟩)
  | _, _, _ => (.ok (.bool false), s)

/-- The module function `registerPrehook(type, hook)`. -/
def registerPrehook (type hook : Val) (s : State) : Completion × State :=
  registerHook (.str "pre") type hook s

/-- The module function `registerPosthook(type, hook)`. -/
def registerPosthook (type hook : Val) (s : State) : Completion × State :=
  registerHook (.str "post") type hook s

/-- The arrow function `hook => (typeof hook === 'function') ?
registerHook(position, type, hook) : void 0` of `registerHooks`. -/
def registerElement (position : Val) (type : String) (hook : Val) (s : State) :
    Completion × State :=
  if typeOf hook = "function" then registerHook position (.str type) hook s
  else (.ok .undefined, s)

/-- The call `hooks.map(hook => ...)` of `registerHooks`, where `hooks` is the
array found under `type`: `registerElement` on every element in turn, until
one raises. -/
def registerEach (position : Val) (type : String) :
    List Val → State → Except Thrown (List Val) × State
  | [], s => (.ok [], s)
  | h :: hs, s =>
    match registerElement position type h s with
    | (.error e, s1) => (.error e, s1)
    | (.ok v, s1) =>
      match registerEach position type hs s1 with
      | (.error e, s2) => (.error e, s2)
      | (.ok vs, s2) => (.ok (v :: vs), s2)

/-- The assignment `result[type] = v` on the object `result`, created by the
literal `{}`: the key `__proto__` reaches the accessor of `Object.prototype`
and creates no own property. -/
def setResult (result : List (String × Val)) (k : String) (v : Val) :
    List (String × Val) :=
  if k = "__proto__" then result
  else if result.any (fun e => e.1 == k) then
    result.map fun e => if e.1 = k then (e.1, v) else e
  else result ++ [(k, v)]

/-- The body of the `forEach` of `registerHooks`, for the key `type` and the
value `structTypes[type]`. -/
def registerEntry (position : Val) (type : String) (hooks : Val)
    (result : List (String × Val)) (s : State) :
    Except Thrown (List (String × Val)) × State :=
  if typeOf hooks = "function" then
    match registerHook position (.str type) hooks s with
    | (.error e, s1) => (.error e, s1)
    | (.ok v, s1) => (.ok (setResult result type (.arr [v])), s1)
  else
    -- Array.isArray(hooks)
    match hooks with
    | .arr elems =>
      match registerEach position type elems s with
      | (.error e, s1) => (.error e, s1)
      | (.ok vs, s1) => (.ok (setResult result type (.arr vs)), s1)
    | _ => (.ok (setResult result type .undefined), s)

/-- The loop `Object.keys(structTypes).forEach(type => ...)` of
`registerHooks`, over the keys paired with their values. -/
def registerEntries (position : Val) :
    List (String × Val) → List (String × Val) → State →
      Except Thrown (List (String × Val)) × State
  | [], result, s => (.ok result, s)
  | (type, hooks) :: rest, result, s =>
    match registerEntry position type hooks result s with
    | (.error e, s1) => (.error e, s1)
    | (.ok result1, s1) => registerEntries position rest result1 s1

/-- The keys of `Object.keys(x)` paired with the values `x[key]`, for a value
whose `typeof` is `'object'`: `none` for `null`, on which `Object.keys`
raises. -/
def ownEntries : Val → Option (List (String × Val))
  | .obj props => some props
  | .arr elems => some (elems.enum.map fun e => (toString e.1, e.2))
  | _ => none

/-- The module function `registerHooks(position, structTypes)`. -/
def registerHooks (position structTypes : Val) (s : State) : Completion × State :=
  if typeOf position ≠ "string" then (.ok (.bool false), s)
  else if typeOf structTypes ≠ "object" then (.ok (.bool false), s)
  else
    match ownEntries structTypes with
    | none => (.error .typeError, s)
    | some entries =>
      match registerEntries position entries [] s with
      | (.error e, s1) => (.error e, s1)
      | (.ok result, s1) => (.ok (.obj result), s1)

/-- The module function `registerPrehooks(structTypes)`. -/
def registerPrehooks (structTypes : Val) (s : State) : Completion × State :=
  registerHooks (.str "pre") structTypes s

/-- The module function `registerPosthooks(structTypes)`. -/
def registerPosthooks (structTypes : Val) (s : State) : Completion × State :=
  registerHooks (.str "post") structTypes s

/-- The comparison `x.id !== id` of `unregisterHook`, where `x.id` is a
symbol: false only when `id` is that same symbol. -/
def idDiffers (x : HookRecord) (id : Val) : Bool :=
  match id with
  | .sym uid => x.id != uid
  | _ => true

/-- The body of the `forEach` of `unregisterHook`, for the key `type`:
`hooks[type] = hooks[type].filter(x => x.id !== id)`. The key comes from
`Object.keys(hooks)` and no key is deleted meanwhile. -/
def unregisterAt (id : Val) (hooks : Hooks) (type : String) : Hooks :=
  match hooks.lookup type with
  | some l => setOwn hooks type (l.filter fun x => idDiffers x id)
  | none => hooks

/-- The module function `unregisterHook(id)`: for every key of
`Object.keys(hooks)`, `hooks[type] = hooks[type].filter(x => x.id !== id)`. -/
def unregisterHook (id : Val) (s : State) : Completion × State :=
  (.ok .undefined, ⟨(ownKeys s.hooks).foldl (unregisterAt id) s.hooks, s.symbols⟩)

/-- The module function `clearHooks()`: for every key of `Object.keys(hooks)`,
`delete hooks[type]`. -/
def clearHooks (s : State) : Completion × State :=
  (.ok .undefined, ⟨(ownKeys s.hooks).foldl deleteOwn s.hooks, s.symbols⟩)

/-! ## The middleware -/

/-- The part of the runtime the module does not fix: what a call of a function
object does (its completion and the state it leaves, as a function of its
arguments and of the state it starts in), and the string a non-primitive value
(array, object, function) converts to when used as a property key. -/
structure Env where
  call : Nat → List Val → State → Completion × State
  keyOfObject : Val → String

/-- The property read `action.type` on a truthy value: the own property
`type` of an object, else `undefined`, no built-in prototype having a
property of that name. -/
def actionType : Val → Val
  | .obj props => (props.lookup "type").getD .undefined
  | _ => .undefined

/-- The property key a value converts to in `hooks[v]`: a string, or `none`
for a symbol, under which `hooks` and `Object.prototype` hold nothing. -/
def toPropertyKey (env : Env) : Val → Option String
  | .undefined => some "undefined"
  | .null => some "null"
  | .bool b => some (if b then "true" else "false")
  | .num n => some (toString n)
  | .str s => some s
  | .sym _ => none
  | v => some (env.keyOfObject v)

/-- The property read `hooks[action.type]`. -/
def hooksOfAction (env : Env) (hooks : Hooks) (action : Val) : Slot :=
  match toPropertyKey env (actionType action) with
  | some k => getHooks hooks k
  | none => .absent

/-- The local function `getTheHooksAt(position)` of the middleware, for the
dispatched `action`. -/
def getTheHooksAt (env : Env) (s : State) (action : Val) (position : String) :
    Except Thrown (List Nat) :=
  if truthy action then
    match hooksOfAction env s.hooks action with
    | .own l => .ok ((l.filter fun x => x.position = position).map fun x => x.hook)
    | .inherited => .error .typeError
    | .absent => .ok []
  else .ok []

/-- One call of a function object made by the middleware. -/
structure Call where
  callee : Nat
  args : List Val

/-- What a dispatch through the middleware does: the calls it makes, in
order, its completion and the state it leaves. -/
structure Run where
  calls : List Call
  result : Completion
  state : State

/-- The loop `hooks.forEach(hook => hook(store, action))`. -/
def callHooks (env : Env) (store action : Val) :
    List Nat → State → List Call × Except Thrown Unit × State
  | [], s => ([], .ok (), s)
  | h :: hs, s =>
    match env.call h [store, action] s with
    | (.error e, s1) => ([⟨h, [store, action]⟩], .error e, s1)
    | (.ok _, s1) =>
      match callHooks env store action hs s1 with
      | (cs, r, s2) => (⟨h, [store, action]⟩ :: cs, r, s2)

/-- The default export `store => next => action => ...`. -/
def middleware (env : Env) (store next action : Val) (s : State) : Run :=
  match getTheHooksAt env s action "pre" with
  | .error e => ⟨[], .error e, s⟩
  | .ok prehooks =>
    match getTheHooksAt env s action "post" with
    | .error e => ⟨[], .error e, s⟩
    | .ok posthooks =>
      match callHooks env store action prehooks s with
      | (c1, .error e, s1) => ⟨c1, .error e, s1⟩
      | (c1, .ok _, s1) =>
        match next with
        | .fn n =>
          match env.call n [action] s1 with
          | (.error e, s2) => ⟨c1 ++ [⟨n, [action]⟩], .error e, s2⟩
          | (.ok result, s2) =>
            match callHooks env store action posthooks s2 with
            | (c3, .error e, s3) => ⟨c1 ++ [⟨n, [action]⟩] ++ c3, .error e, s3⟩
            | (c3, .ok _, s3) => ⟨c1 ++ [⟨n, [action]⟩] ++ c3, .ok result, s3⟩
        | _ => ⟨c1, .error .typeError, s1⟩

/-! ## Histories of calls and the vocabulary of the statements -/

/-- A call of one of the exported registry functions. -/
inductive Op where
  | registerHook (position type hook : Val)
  | registerPrehook (type hook : Val)
  | registerPosthook (type hook : Val)
  | registerHooks (position structTypes : Val)
  | registerPrehooks (structTypes : Val)
  | registerPosthooks (structTypes : Val)
  | unregisterHook (id : Val)
  | clearHooks

/-- The completion and the state left by one call. -/
def Op.run : Op → State → Completion × State
  | .registerHook position type hook, s => HookMiddleware.registerHook position type hook s
  | .registerPrehook type hook, s => HookMiddleware.registerPrehook type hook s
  | .registerPosthook type hook, s => HookMiddleware.registerPosthook type hook s
  | .registerHooks position structTypes, s => HookMiddleware.registerHooks position structTypes s
  | .registerPrehooks structTypes, s => HookMiddleware.registerPrehooks structTypes s
  | .registerPosthooks structTypes, s => HookMiddleware.registerPosthooks structTypes s
  | .unregisterHook id, s => HookMiddleware.unregisterHook id s
  | .clearHooks, s => HookMiddleware.clearHooks s

/-- The state after a sequence of calls, each started in the state left by the
one before, whether that one returned or raised. -/
def runOps : List Op → State → State
  | [], s => s
  | op :: ops, s => runOps ops (op.run s).2

/-- A state the exported registry functions can produce from the state of the
freshly loaded module. -/
def Reachable (s : State) : Prop :=
  ∃ ops, runOps ops State.init = s

/-- The symbols among the elements of an array. -/
def symbolsOf (vs : List Val) : List Nat :=
  vs.filterMap fun v => match v with
    | .sym uid => some uid
    | _ => none

/-- The symbols in one value of the object returned by `registerHooks`. -/
def symbolsOfEntry : Val → List Nat
  | .arr vs => symbolsOf vs
  | _ => []

/-- The symbols among the values of the own properties of a result object. -/
def symbolsOfResult : List (String × Val) → List Nat
  | [] => []
  | e :: rest => symbolsOfEntry e.2 ++ symbolsOfResult rest

/-- The identities a call hands to its caller: the symbol `registerHook`
returns, or the symbols in the object `registerHooks` returns. -/
def issued : Completion → List Nat
  | .ok (.sym uid) => [uid]
  | .ok (.obj props) => symbolsOfResult props
  | _ => []

/-- The identities handed out by a sequence of calls, in order. -/
def issuedBy : List Op → State → List Nat
  | [], _ => []
  | op :: ops, s => issued (op.run s).1 ++ issuedBy ops (op.run s).2

/-- The identities of all records of the registry, type after type. -/
def allIds : Hooks → List Nat
  | [] => []
  | e :: rest => e.2.map (fun x => x.id) ++ allIds rest

/-- The representation of `hooks` is that of an object: no key occurs twice. -/
def WellFormed (hooks : Hooks) : Prop :=
  (ownKeys hooks).Nodup

/-- An environment in which no call of a function object raises. -/
def Quiet (env : Env) : Prop :=
  ∀ f args s, ∃ v s1, env.call f args s = (.ok v, s1)

/-- The calls `hook(store, action)` for a list of hooks. -/
def hookCalls (store action : Val) (hs : List Nat) : List Call :=
  hs.map fun h => ⟨h, [store, action]⟩

/-- The callbacks of the records of a list at one position, in order. -/
def callbacksAt (l : List HookRecord) (position : String) : List Nat :=
  (l.filter fun x => x.position = position).map fun x => x.hook

/-- The state in which the continuation is called: the one left by the
pre-hooks. -/
def stateAfterHooks (env : Env) (store action : Val) (hs : List Nat) (s : State) : State :=
  (callHooks env store action hs s).2.2

/-- The invariant of the registry: it is well formed, no two of its records
carry the same identity, and every identity it holds is a symbol already
allocated. -/
def Inv (s : State) : Prop :=
  WellFormed s.hooks ∧ (allIds s.hooks).Nodup ∧ ∀ i ∈ allIds s.hooks, i < s.symbols

/-- The invariant of the object `result` of `registerHooks` while it is
filled: no key occurs twice, no symbol occurs twice, and every symbol was
allocated from `lo` on and before `hi`. -/
def ResultInv (result : List (String × Val)) (lo hi : Nat) : Prop :=
  (result.map Prod.fst).Nodup ∧ (symbolsOfResult result).Nodup
    ∧ ∀ i ∈ symbolsOfResult result, lo ≤ i ∧ i < hi

/-- An environment in which every function returns `undefined` and leaves the
state alone, and every non-primitive value converts to `"[object Object]"`. -/
def idleEnv : Env :=
  ⟨fun _ _ s => (.ok .undefined, s), fun _ => "[object Object]"⟩

/-- The records the registry holds for a dispatched action: the list found
under the key `action.type` converts to, when the action is truthy and
`hooks` has that key itself. -/
def recordsFor (env : Env) (s : State) (action : Val) : List HookRecord :=
  if truthy action then
    match hooksOfAction env s.hooks action with
    | .own l => l
    | _ => []
  else []

/-! ## What `registerHooks` is said to do

The definitions of this section follow the description of `registerHooks`,
not its code: they are what the code is compared with. -/

/-- The functions among the elements of an array found under `type`, each with
that type, in positional order. -/
def functionsOfArray (type : String) : List Val → List (String × Nat)
  | [] => []
  | .fn f :: rest => (type, f) :: functionsOfArray type rest
  | _ :: rest => functionsOfArray type rest

/-- The functions found in a mapping, each with the key it stands under: the
value itself when it is a function, the function elements of a list value in
positional order, and nothing for any other value. -/
def functionsOf : List (String × Val) → List (String × Nat)
  | [] => []
  | (k, .fn f) :: rest => (k, f) :: functionsOf rest
  | (k, .arr elems) :: rest => functionsOfArray k elems ++ functionsOf rest
  | _ :: rest => functionsOf rest

/-- One call `registerHook(position, key, f)` for each function of a list, in
order. -/
def registerAll (position : Val) : List (String × Nat) → State → State
  | [], s => s
  | (k, f) :: rest, s =>
    registerAll position rest (registerHook position (.str k) (.fn f) s).2

/-- The list described for a list value: at each place a fresh identity when
the element is a function and `undefined` otherwise, `n` being the first
unused symbol. -/
def expectedArray : List Val → Nat → List Val
  | [], _ => []
  | .fn _ :: rest, n => .sym n :: expectedArray rest (n + 1)
  | _ :: rest, n => .undefined :: expectedArray rest n

/-- The number of functions among the elements of an array. -/
def countFunctions : List Val → Nat
  | [] => 0
  | .fn _ :: rest => countFunctions rest + 1
  | _ :: rest => countFunctions rest

/-- The value described for one key: a one-element list for a function, a list
of the same length for a list, `undefined` for anything else. -/
def expectedValue : Val → Nat → Val
  | .fn _, n => .arr [.sym n]
  | .arr elems, n => .arr (expectedArray elems n)
  | _, _ => .undefined

/-- The number of functions under one key. -/
def functionsIn : Val → Nat
  | .fn _ => 1
  | .arr elems => countFunctions elems
  | _ => 0

/-- The mapping described as the result: the keys of the input, in order,
each with its described value. -/
def expectedResult : List (String × Val) → Nat → List (String × Val)
  | [], _ => []
  | (k, v) :: rest, n => (k, expectedValue v n) :: expectedResult rest (n + functionsIn v)

/-! ## The vocabulary of failures, frames and positions -/

/-- The normal call sequence of a dispatch, computed from the registry as it
is when the dispatch starts: the pre-hooks stored for the action, the
continuation, the post-hooks stored for the action. -/
def normalCalls (env : Env) (store : Val) (n : Nat) (action : Val) (s : State) : List Call :=
  hookCalls store action (callbacksAt (recordsFor env s action) "pre")
    ++ [⟨n, [action]⟩]
    ++ hookCalls store action (callbacksAt (recordsFor env s action) "post")

/-- The calls of a list made one after the other, each in the state left by
the one before, until one raises: the calls made, whether one raised, and the
state left. -/
def runSeq (env : Env) : List Call → State → List Call × Except Thrown Unit × State
  | [], s => ([], .ok (), s)
  | c :: cs, s =>
    match env.call c.callee c.args s with
    | (.error e, s1) => ([c], .error e, s1)
    | (.ok _, s1) =>
      match runSeq env cs s1 with
      | (made, r, s2) => (c :: made, r, s2)

/-- The state after the calls of a list made one after the other, when none
of them raises. -/
def afterCalls (env : Env) : List Call → State → Option State
  | [], s => some s
  | c :: cs, s =>
    match env.call c.callee c.args s with
    | (.ok _, s1) => afterCalls env cs s1
    | (.error _, _) => none

/-- The registry holds the record `r` in the list of the type `t`. -/
def Holds (hooks : Hooks) (t : String) (r : HookRecord) : Prop :=
  ∃ l, hooks.lookup t = some l ∧ r ∈ l

/-- Every record of the registry has a position that satisfies `P`. -/
def AllPositions (P : String → Prop) (hooks : Hooks) : Prop :=
  ∀ e ∈ hooks, ∀ x ∈ e.2, P x.position

/-- The position is one of the two the middleware asks for. -/
def PreOrPost (position : String) : Prop :=
  position = "pre" ∨ position = "post"

/-- A call of a registry function that names a position names `'pre'` or
`'post'`; the wrappers do so by themselves. -/
def Op.NamesPreOrPost : Op → Prop
  | .registerHook position _ _ => position = .str "pre" ∨ position = .str "post"
  | .registerHooks position _ => position = .str "pre" ∨ position = .str "post"
  | _ => True

/-- An environment in which the function `7` raises the string `"boom"` and
every other function returns `undefined`, none touching the state. -/
def failingEnv : Env :=
  ⟨fun f _ s => if f = 7 then (.error (.raised (.str "boom")), s) else (.ok .undefined, s),
   fun _ => "[object Object]"⟩

/-- An environment in which the function `3` calls `clearHooks()` and then
`registerHook('post', 'A', g)` for the function `g = 8`, and every other
function returns `undefined` without touching the state. -/
def meddlingEnv : Env :=
  ⟨fun f _ s =>
     if f = 3 then
       (.ok .undefined, (registerHook (.str "post") (.str "A") (.fn 8) (clearHooks s).2).2)
     else (.ok .undefined, s),
   fun _ => "[object Object]"⟩

/-! ## Association lists -/

theorem lookup_eq_none_iff {β : Type} (H : List (String × β)) (k : String) :
    H.lookup k = none ↔ k ∉ H.map Prod.fst := by
  induction H with
  | nil => simp
  | cons e rest ih =>
    obtain ⟨a, b⟩ := e
    by_cases h : k = a
    · subst h; simp [List.lookup_cons]
    · have h2 : (k == a) = false := by simpa using h
      simp [List.lookup_cons, h2, ih, h]

/-- With distinct keys, a key that is looked up successfully splits the list
around its single entry. -/
theorem lookup_split {β : Type} (H : List (String × β)) (k : String) (v : β)
    (hnd : (H.map Prod.fst).Nodup) (h : H.lookup k = some v) :
    ∃ pre post, H = pre ++ (k, v) :: post ∧ k ∉ pre.map Prod.fst ∧ k ∉ post.map Prod.fst := by
  induction H with
  | nil => simp at h
  | cons e rest ih =>
    obtain ⟨a, b⟩ := e
    simp only [List.map_cons, List.nodup_cons] at hnd
    by_cases hk : k = a
    · subst hk
      simp [List.lookup_cons] at h
      subst h
      exact ⟨[], rest, by simp, by simp, hnd.1⟩
    · have h2 : (k == a) = false := by simpa using hk
      simp only [List.lookup_cons, h2] at h
      obtain ⟨pre, post, hH, h1, h3⟩ := ih hnd.2 h
      refine ⟨(a, b) :: pre, post, by simp [hH], ?_, h3⟩
      simp only [List.map_cons, List.mem_cons, not_or]
      exact ⟨hk, h1⟩

theorem lookup_append_of_not_mem {β : Type} (pre post : List (String × β)) (k : String)
    (h : k ∉ pre.map Prod.fst) : (pre ++ post).lookup k = post.lookup k := by
  induction pre with
  | nil => rfl
  | cons e rest ih =>
    obtain ⟨a, b⟩ := e
    simp only [List.map_cons, List.mem_cons, not_or] at h
    have h2 : (k == a) = false := by simpa using h.1
    simp only [List.cons_append, List.lookup_cons, h2]
    exact ih h.2

theorem lookup_middle {β : Type} (pre post : List (String × β)) (k : String) (v : β)
    (h : k ∉ pre.map Prod.fst) : (pre ++ (k, v) :: post).lookup k = some v := by
  rw [lookup_append_of_not_mem pre _ k h]
  simp [List.lookup_cons]

theorem lookup_middle_ne {β : Type} (pre post : List (String × β)) (k j : String) (v w : β)
    (h : j ≠ k) : (pre ++ (k, v) :: post).lookup j = (pre ++ (k, w) :: post).lookup j := by
  induction pre with
  | nil =>
    have h2 : (j == k) = false := by simpa using h
    simp [List.lookup_cons, h2]
  | cons e rest ih =>
    obtain ⟨a, b⟩ := e
    simp only [List.cons_append, List.lookup_cons]
    rw [ih]

/-- Replacing the value under a key leaves a list without that key alone. -/
theorem map_replace_of_not_mem {β : Type} (H : List (String × β)) (k : String) (v : β)
    (h : k ∉ H.map Prod.fst) : (H.map fun e => if e.1 = k then (e.1, v) else e) = H := by
  induction H with
  | nil => rfl
  | cons e rest ih =>
    simp only [List.map_cons, List.mem_cons, not_or] at h
    have h1 : ¬ e.1 = k := fun hh => h.1 hh.symm
    simp [h1, ih h.2]

theorem map_replace_middle {β : Type} (pre post : List (String × β)) (k : String) (v w : β)
    (h1 : k ∉ pre.map Prod.fst) (h2 : k ∉ post.map Prod.fst) :
    ((pre ++ (k, v) :: post).map fun e => if e.1 = k then (e.1, w) else e)
      = pre ++ (k, w) :: post := by
  simp only [List.map_append, List.map_cons, if_true]
  rw [map_replace_of_not_mem pre k w h1, map_replace_of_not_mem post k w h2]

/-! ## `registerHook` -/

theorem typeOf_string_iff (v : Val) : typeOf v = "string" ↔ ∃ x, v = .str x := by
  cases v <;> simp [typeOf]

theorem typeOf_function_iff (v : Val) : typeOf v = "function" ↔ ∃ f, v = .fn f := by
  cases v <;> simp [typeOf]

theorem getHooks_own_iff (H : Hooks) (k : String) (l : List HookRecord) :
    getHooks H k = .own l ↔ H.lookup k = some l := by
  unfold getHooks
  cases h : H.lookup k with
  | none => by_cases hk : k ∈ objectPrototypeKeys <;> simp [hk]
  | some l1 => simp

theorem getHooks_absent_iff (H : Hooks) (k : String) :
    getHooks H k = .absent ↔ H.lookup k = none ∧ k ∉ objectPrototypeKeys := by
  unfold getHooks
  cases h : H.lookup k with
  | none => by_cases hk : k ∈ objectPrototypeKeys <;> simp [hk]
  | some l1 => simp

theorem getHooks_inherited_iff (H : Hooks) (k : String) :
    getHooks H k = .inherited ↔ H.lookup k = none ∧ k ∈ objectPrototypeKeys := by
  unfold getHooks
  cases h : H.lookup k with
  | none => by_cases hk : k ∈ objectPrototypeKeys <;> simp [hk]
  | some l1 => simp

/-- With a type that has a list already, `registerHook` appends to it. -/
theorem registerHook_own (p t : String) (f : Nat) (s : State) (l : List HookRecord)
    (h : s.hooks.lookup t = some l) :
    registerHook (.str p) (.str t) (.fn f) s
      = (.ok (.sym s.symbols), ⟨setOwn s.hooks t (l ++ [⟨p, s.symbols, f⟩]), s.symbols + 1⟩) := by
  have h1 : getHooks s.hooks t = .own l := (getHooks_own_iff _ _ _).2 h
  simp [registerHook, h1]

/-- With a type that has no list and is not a name of `Object.prototype`,
`registerHook` creates the list with the one record. -/
theorem registerHook_absent (p t : String) (f : Nat) (s : State)
    (h : s.hooks.lookup t = none) (hk : t ∉ objectPrototypeKeys) :
    registerHook (.str p) (.str t) (.fn f) s
      = (.ok (.sym s.symbols), ⟨s.hooks ++ [(t, [⟨p, s.symbols, f⟩])], s.symbols + 1⟩) := by
  have h1 : getHooks s.hooks t = .absent := (getHooks_absent_iff _ _).2 ⟨h, hk⟩
  have h2 : t ∉ s.hooks.map Prod.fst := (lookup_eq_none_iff _ _).1 h
  have h3 : (s.hooks ++ [(t, ([] : List HookRecord))]).lookup t = some [] := by
    have := lookup_middle s.hooks [] t ([] : List HookRecord) h2
    simpa using this
  have h4 : getHooks (s.hooks ++ [(t, [])]) t = .own [] := (getHooks_own_iff _ _ _).2 h3
  have h5 := map_replace_middle s.hooks [] t ([] : List HookRecord) [⟨p, s.symbols, f⟩] h2 (by simp)
  simp only [registerHook, h1, h4, setOwn, List.nil_append]
  rw [h5]

/-- With a type that has no list and is a name of `Object.prototype`,
`registerHook` allocates its symbol and raises on the call of `push`. -/
theorem registerHook_inherited (p t : String) (f : Nat) (s : State)
    (h : s.hooks.lookup t = none) (hk : t ∈ objectPrototypeKeys) :
    registerHook (.str p) (.str t) (.fn f) s
      = (.error .typeError, ⟨s.hooks, s.symbols + 1⟩) := by
  have h1 : getHooks s.hooks t = .inherited := (getHooks_inherited_iff _ _).2 ⟨h, hk⟩
  simp [registerHook, h1]

theorem registerHook_invalid (position type hook : Val) (s : State)
    (h : typeOf position ≠ "string" ∨ typeOf type ≠ "string" ∨ typeOf hook ≠ "function") :
    registerHook position type hook s = (.ok (.bool false), s) := by
  cases position <;> cases type <;> cases hook <;> simp [typeOf] at h <;> rfl

/-- The three shapes of a call of `registerHook` with valid arguments. -/
theorem registerHook_valid_cases (p t : String) (f : Nat) (s : State) :
    (∃ H, registerHook (.str p) (.str t) (.fn f) s = (.ok (.sym s.symbols), ⟨H, s.symbols + 1⟩))
    ∨ registerHook (.str p) (.str t) (.fn f) s = (.error .typeError, ⟨s.hooks, s.symbols + 1⟩) := by
  cases h : s.hooks.lookup t with
  | some l => exact Or.inl ⟨_, registerHook_own p t f s l h⟩
  | none =>
    by_cases hk : t ∈ objectPrototypeKeys
    · exact Or.inr (registerHook_inherited p t f s h hk)
    · exact Or.inl ⟨_, registerHook_absent p t f s h hk⟩

theorem lookup_replace_ne {β : Type} (H : List (String × β)) (k j : String) (v : β)
    (h : j ≠ k) : (H.map fun e => if e.1 = k then (e.1, v) else e).lookup j = H.lookup j := by
  induction H with
  | nil => rfl
  | cons e rest ih =>
    obtain ⟨a, b⟩ := e
    by_cases ha : a = k
    · subst ha
      have h2 : (j == a) = false := by simpa using h
      simp [List.lookup_cons, h2, ih]
    · simp only [List.map_cons, ha, if_false, List.lookup_cons, ih]

theorem lookup_replace_self {β : Type} (H : List (String × β)) (k : String) (v : β)
    (h : k ∈ H.map Prod.fst) :
    (H.map fun e => if e.1 = k then (e.1, v) else e).lookup k = some v := by
  induction H with
  | nil => simp at h
  | cons e rest ih =>
    obtain ⟨a, b⟩ := e
    by_cases ha : a = k
    · subst ha; simp [List.lookup_cons]
    · have h2 : (k == a) = false := by simpa using fun hh : k = a => ha hh.symm
      have h3 : k ∈ rest.map Prod.fst := by
        simp only [List.map_cons, List.mem_cons] at h
        rcases h with h | h
        · exact absurd h.symm ha
        · exact h
      simp only [List.map_cons, ha, if_false, List.lookup_cons, h2, ih h3]

/-- On a type that is not a name of `Object.prototype`, or that has a list,
`registerHook` returns the fresh symbol and appends the one record to the list
of that type, creating it when absent, the other lists being untouched. -/
theorem registerHook_appends (p t : String) (f : Nat) (s : State)
    (hk : t ∉ objectPrototypeKeys ∨ t ∈ ownKeys s.hooks) :
    (registerHook (.str p) (.str t) (.fn f) s).1 = .ok (.sym s.symbols)
    ∧ (registerHook (.str p) (.str t) (.fn f) s).2.hooks.lookup t
        = some ((s.hooks.lookup t).getD [] ++ [⟨p, s.symbols, f⟩])
    ∧ ∀ j, j ≠ t →
        (registerHook (.str p) (.str t) (.fn f) s).2.hooks.lookup j = s.hooks.lookup j := by
  cases h : s.hooks.lookup t with
  | some l =>
    have hmem : t ∈ s.hooks.map Prod.fst := by
      by_contra hc
      rw [(lookup_eq_none_iff _ _).2 hc] at h
      exact Option.noConfusion h
    rw [registerHook_own p t f s l h]
    refine ⟨rfl, ?_, ?_⟩
    · simpa [setOwn] using lookup_replace_self s.hooks t _ hmem
    · intro j hj
      simpa [setOwn] using lookup_replace_ne s.hooks t j _ hj
  | none =>
    have hnot : t ∉ s.hooks.map Prod.fst := (lookup_eq_none_iff _ _).1 h
    have hk1 : t ∉ objectPrototypeKeys := by
      rcases hk with hk | hk
      · exact hk
      · exact absurd hk hnot
    rw [registerHook_absent p t f s h hk1]
    refine ⟨rfl, ?_, ?_⟩
    · have := lookup_middle s.hooks [] t [(⟨p, s.symbols, f⟩ : HookRecord)] hnot
      simpa using this
    · intro j hj
      have h2 : (j == t) = false := by simpa using hj
      have := lookup_middle_ne s.hooks [] t j [(⟨p, s.symbols, f⟩ : HookRecord)] [] hj
      rw [this]
      clear this
      induction s.hooks with
      | nil => simp [List.lookup_cons, h2]
      | cons e rest ih =>
        obtain ⟨a, b⟩ := e
        simp only [List.cons_append, List.lookup_cons, ih]

/-- Claim C2, at the type `"constructor"`: in the freshly loaded module the
call `registerHook('pre', 'constructor', f)` raises a `TypeError` (the read
`hooks['constructor']` finds the inherited `Object`, which has no `push`); it
returns no identity and stores no record. -/
theorem registerHook_constructor_raises :
    registerHook (.str "pre") (.str "constructor") (.fn 0) State.init
      = (.error .typeError, ⟨[], 1⟩) := rfl

/-- Claim C3: `registerHook` returns `false` exactly when `position` is not a
string, or `type` is not a string, or `hook` is not a function, and in each of
these cases it leaves the state, hence the registry, as it was. -/
theorem registerHook_false_iff (position type hook : Val) (s : State) :
    ((registerHook position type hook s).1 = .ok (.bool false)
      ↔ (typeOf position ≠ "string" ∨ typeOf type ≠ "string" ∨ typeOf hook ≠ "function"))
    ∧ ((typeOf position ≠ "string" ∨ typeOf type ≠ "string" ∨ typeOf hook ≠ "function")
      → (registerHook position type hook s).2 = s) := by
  refine ⟨⟨?_, ?_⟩, ?_⟩
  · intro h
    by_contra hc
    simp only [not_or, not_not] at hc
    obtain ⟨p, rfl⟩ := (typeOf_string_iff _).1 hc.1
    obtain ⟨t, rfl⟩ := (typeOf_string_iff _).1 hc.2.1
    obtain ⟨f, rfl⟩ := (typeOf_function_iff _).1 hc.2.2
    rcases registerHook_valid_cases p t f s with ⟨H, hH⟩ | hH
    · rw [hH] at h
      simp at h
    · rw [hH] at h
      simp at h
  · intro h
    rw [registerHook_invalid position type hook s h]
  · intro h
    rw [registerHook_invalid position type hook s h]

theorem registerHook_false_iff_witness :
    (typeOf (.num 7) ≠ "string" ∨ typeOf (.str "A") ≠ "string" ∨ typeOf (.fn 0) ≠ "function")
    ∧ (registerHook (.num 7) (.str "A") (.fn 0) ⟨[("A", [⟨"pre", 0, 3⟩])], 1⟩).2
        = ⟨[("A", [⟨"pre", 0, 3⟩])], 1⟩ :=
  ⟨Or.inl (by decide),
   (registerHook_false_iff (.num 7) (.str "A") (.fn 0) ⟨[("A", [⟨"pre", 0, 3⟩])], 1⟩).2
     (Or.inl (by decide))⟩

/-! ## `unregisterHook` and `clearHooks` -/

theorem unregisterAt_cons_ne (id : Val) (x : String × List HookRecord) (H : Hooks)
    (k : String) (h : k ≠ x.1) :
    unregisterAt id (x :: H) k = x :: unregisterAt id H k := by
  obtain ⟨a, b⟩ := x
  have h2 : (k == a) = false := by simpa using h
  have h3 : ¬ a = k := fun hh => h hh.symm
  unfold unregisterAt
  simp only [List.lookup_cons, h2]
  cases H.lookup k with
  | none => rfl
  | some l => simp [setOwn, h3]

theorem foldl_unregisterAt_cons (id : Val) (ks : List String) :
    ∀ (x : String × List HookRecord) (H : Hooks), x.1 ∉ ks →
      ks.foldl (unregisterAt id) (x :: H) = x :: ks.foldl (unregisterAt id) H := by
  induction ks with
  | nil => intro x H _; rfl
  | cons k ks ih =>
    intro x H hx
    simp only [List.mem_cons, not_or] at hx
    simp only [List.foldl_cons]
    rw [unregisterAt_cons_ne id x H k (fun hh => hx.1 hh.symm)]
    exact ih x _ hx.2

theorem unregisterAt_head (id : Val) (a : String) (b : List HookRecord) (H : Hooks)
    (h : a ∉ H.map Prod.fst) :
    unregisterAt id ((a, b) :: H) a = (a, b.filter fun x => idDiffers x id) :: H := by
  unfold unregisterAt
  simp only [List.lookup_cons, beq_self_eq_true, setOwn, List.map_cons, if_true]
  rw [map_replace_of_not_mem H a _ h]

/-- On a well-formed registry the loop of `unregisterHook` filters every list
in place. -/
theorem foldl_unregisterAt_eq_map (id : Val) (H : Hooks) (hwf : WellFormed H) :
    (ownKeys H).foldl (unregisterAt id) H
      = H.map fun e => (e.1, e.2.filter fun x => idDiffers x id) := by
  induction H with
  | nil => rfl
  | cons e rest ih =>
    obtain ⟨a, b⟩ := e
    unfold WellFormed ownKeys at hwf
    simp only [List.map_cons, List.nodup_cons] at hwf
    simp only [ownKeys, List.map_cons, List.foldl_cons]
    rw [unregisterAt_head id a b rest hwf.1]
    rw [foldl_unregisterAt_cons id _ _ rest hwf.1]
    have := ih hwf.2
    unfold ownKeys at this
    rw [this]

theorem unregisterHook_hooks (id : Val) (s : State) (hwf : WellFormed s.hooks) :
    (unregisterHook id s).2.hooks
      = s.hooks.map fun e => (e.1, e.2.filter fun x => idDiffers x id) := by
  simp only [unregisterHook]
  exact foldl_unregisterAt_eq_map id s.hooks hwf

theorem ownKeys_map_filter (id : Val) (H : Hooks) :
    ownKeys (H.map fun e => (e.1, e.2.filter fun x => idDiffers x id)) = ownKeys H := by
  simp [ownKeys, Function.comp_def]

theorem mem_allIds (H : Hooks) (i : Nat) :
    i ∈ allIds H ↔ ∃ e ∈ H, ∃ x ∈ e.2, x.id = i := by
  induction H with
  | nil => simp [allIds]
  | cons e rest ih =>
    simp only [allIds, List.mem_append, List.mem_map, ih, List.mem_cons]
    constructor
    · rintro (⟨x, hx, rfl⟩ | ⟨e1, he1, x, hx, rfl⟩)
      · exact ⟨e, Or.inl rfl, x, hx, rfl⟩
      · exact ⟨e1, Or.inr he1, x, hx, rfl⟩
    · rintro ⟨e1, (rfl | he1), x, hx, rfl⟩
      · exact Or.inl ⟨x, hx, rfl⟩
      · exact Or.inr ⟨e1, he1, x, hx, rfl⟩

theorem allIds_append (H1 H2 : Hooks) : allIds (H1 ++ H2) = allIds H1 ++ allIds H2 := by
  induction H1 with
  | nil => rfl
  | cons e rest ih => simp [allIds, ih]

/-- Filtering by an identity that no record carries changes nothing. -/
theorem map_filter_of_not_mem (id : Val) (H : Hooks)
    (h : ∀ uid, id = .sym uid → uid ∉ allIds H) :
    (H.map fun e => (e.1, e.2.filter fun x => idDiffers x id)) = H := by
  have hid : ∀ e ∈ H, (fun e : String × List HookRecord =>
      (e.1, e.2.filter fun x => idDiffers x id)) e
        = (fun e : String × List HookRecord => e) e := by
    intro e he
    have : (e.2.filter fun x => idDiffers x id) = e.2 := by
      rw [List.filter_eq_self]
      intro x hx
      cases id with
      | sym uid =>
        simp only [idDiffers, bne_iff_ne, ne_eq]
        intro hc
        exact h uid rfl ((mem_allIds H uid).2 ⟨e, he, x, hx, hc⟩)
      | _ => rfl
    simp only [this]
  rw [List.map_congr_left hid]
  simp

theorem foldl_deleteOwn_eq_nil (ks : List String) :
    ∀ H : Hooks, (∀ e ∈ H, e.1 ∈ ks) → ks.foldl deleteOwn H = [] := by
  induction ks with
  | nil =>
    intro H h
    simp only [List.foldl_nil]
    apply List.eq_nil_iff_forall_not_mem.2
    intro e he
    simpa using h e he
  | cons k ks ih =>
    intro H h
    simp only [List.foldl_cons]
    apply ih
    intro e he
    simp only [deleteOwn, List.mem_filter, bne_iff_ne, ne_eq] at he
    have := h e he.1
    simp only [List.mem_cons] at this
    rcases this with h1 | h1
    · exact absurd h1 he.2
    · exact h1

/-- After `clearHooks` the object `hooks` has no own property. -/
theorem clearHooks_hooks (s : State) : (clearHooks s).2.hooks = [] := by
  simp only [clearHooks]
  apply foldl_deleteOwn_eq_nil
  intro e he
  exact List.mem_map_of_mem Prod.fst he

/-- Claim C6: on every registry, two calls `unregisterHook(id)` in a row leave
the state the first one leaves, and both return normally. The registry is
taken well formed: as in every object, no key occurs twice. -/
theorem unregisterHook_idempotent (id : Val) (s : State) (hwf : WellFormed s.hooks) :
    (unregisterHook id (unregisterHook id s).2).2 = (unregisterHook id s).2
    ∧ (unregisterHook id s).1 = .ok .undefined
    ∧ (unregisterHook id (unregisterHook id s).2).1 = .ok .undefined := by
  refine ⟨?_, rfl, rfl⟩
  have h1 := unregisterHook_hooks id s hwf
  have hwf1 : WellFormed (unregisterHook id s).2.hooks := by
    rw [h1]
    unfold WellFormed
    rw [ownKeys_map_filter]
    exact hwf
  have h2 := unregisterHook_hooks id (unregisterHook id s).2 hwf1
  have h3 : (unregisterHook id (unregisterHook id s).2).2.hooks
      = (unregisterHook id s).2.hooks := by
    rw [h2, h1, List.map_map]
    apply List.map_congr_left
    intro e _
    simp [Function.comp, List.filter_filter]
  have h4 : (unregisterHook id (unregisterHook id s).2).2.symbols
      = (unregisterHook id s).2.symbols := rfl
  cases hs : (unregisterHook id (unregisterHook id s).2).2 with
  | mk a b =>
    cases ht : (unregisterHook id s).2 with
    | mk c d =>
      rw [hs, ht] at h3 h4
      simp only at h3 h4
      rw [h3, h4]

theorem unregisterHook_idempotent_witness :
    (unregisterHook (.sym 0)
        (unregisterHook (.sym 0) ⟨[("A", [⟨"pre", 0, 3⟩, ⟨"post", 1, 4⟩])], 2⟩).2).2
      = ⟨[("A", [⟨"post", 1, 4⟩])], 2⟩ :=
  ((unregisterHook_idempotent (.sym 0) ⟨[("A", [⟨"pre", 0, 3⟩, ⟨"post", 1, 4⟩])], 2⟩
      (by unfold WellFormed ownKeys; decide)).1).trans (by decide)

/-- Claim C7: when `id` is not the identity of any record of the registry (a
symbol that no record carries, or a value that is no symbol), the call
`unregisterHook(id)` returns normally and leaves the state as it was: the same
keys and, under each, the same records in the same order. The registry is
taken well formed: as in every object, no key occurs twice. -/
theorem unregisterHook_unknown (id : Val) (s : State) (hwf : WellFormed s.hooks)
    (h : ∀ uid, id = .sym uid → uid ∉ allIds s.hooks) :
    unregisterHook id s = (.ok .undefined, s) := by
  have h1 := unregisterHook_hooks id s hwf
  rw [map_filter_of_not_mem id s.hooks h] at h1
  have h2 : (unregisterHook id s).2.symbols = s.symbols := rfl
  have h3 : (unregisterHook id s).1 = .ok .undefined := rfl
  cases hs : unregisterHook id s with
  | mk r s1 =>
    rw [hs] at h1 h2 h3
    cases s1 with
    | mk a b =>
      cases s with
      | mk c d =>
        simp only at h1 h2 h3
        rw [h1, h2, h3]

theorem unregisterHook_unknown_witness :
    unregisterHook (.sym 9) ⟨[("A", [⟨"pre", 0, 3⟩, ⟨"post", 1, 4⟩])], 2⟩
      = (.ok .undefined, ⟨[("A", [⟨"pre", 0, 3⟩, ⟨"post", 1, 4⟩])], 2⟩) :=
  unregisterHook_unknown (.sym 9) ⟨[("A", [⟨"pre", 0, 3⟩, ⟨"post", 1, 4⟩])], 2⟩
    (by unfold WellFormed ownKeys; decide)
    (by intro uid h; cases h; decide)

/-! ## The invariant -/

theorem inv_init : Inv State.init := by
  simp [Inv, WellFormed, ownKeys, State.init, allIds]

theorem allIds_middle (pre post : Hooks) (k : String) (l : List HookRecord) :
    allIds (pre ++ (k, l) :: post) = allIds pre ++ (l.map (fun x => x.id) ++ allIds post) := by
  rw [allIds_append]
  rfl

theorem allIds_push_perm (pre post : Hooks) (t : String) (l : List HookRecord)
    (r : HookRecord) :
    (allIds (pre ++ (t, l ++ [r]) :: post)).Perm (r.id :: allIds (pre ++ (t, l) :: post)) := by
  rw [List.perm_iff_count]
  intro a
  simp only [allIds_middle, List.map_append, List.map_cons, List.map_nil, List.count_append,
    List.count_cons, List.count_nil]
  omega

/-- A record with a fresh identity appended to a list keeps the invariant. -/
theorem inv_push (pre post : Hooks) (t : String) (l : List HookRecord) (r : HookRecord)
    (n : Nat) (hid : r.id = n) (h : Inv ⟨pre ++ (t, l) :: post, n⟩) :
    Inv ⟨pre ++ (t, l ++ [r]) :: post, n + 1⟩ := by
  obtain ⟨hwf, hnd, hlt⟩ := h
  simp only at hwf hnd hlt
  have hperm := allIds_push_perm pre post t l r
  refine ⟨?_, ?_, ?_⟩
  · simpa [WellFormed, ownKeys] using hwf
  · simp only
    rw [hperm.nodup_iff, List.nodup_cons]
    refine ⟨?_, hnd⟩
    intro hc
    have := hlt _ hc
    omega
  · intro i hi
    simp only at hi ⊢
    rw [hperm.mem_iff, List.mem_cons] at hi
    rcases hi with hi | hi
    · omega
    · have := hlt i hi
      omega

theorem inv_mono (H : Hooks) (n m : Nat) (h : Inv ⟨H, n⟩) (hnm : n ≤ m) : Inv ⟨H, m⟩ := by
  obtain ⟨hwf, hnd, hlt⟩ := h
  refine ⟨hwf, hnd, ?_⟩
  intro i hi
  have := hlt i hi
  simp only at this ⊢
  omega

theorem inv_add_key (H : Hooks) (n : Nat) (t : String) (h : Inv ⟨H, n⟩)
    (ht : t ∉ H.map Prod.fst) : Inv ⟨H ++ [(t, [])], n⟩ := by
  obtain ⟨hwf, hnd, hlt⟩ := h
  simp only [WellFormed, ownKeys] at hwf hnd hlt
  have hids : allIds (H ++ [(t, ([] : List HookRecord))]) = allIds H := by
    rw [allIds_append]
    simp [allIds]
  refine ⟨?_, ?_, ?_⟩
  · simp only [WellFormed, ownKeys, List.map_append, List.map_cons, List.map_nil]
    rw [List.nodup_append]
    refine ⟨hwf, by simp, ?_⟩
    intro a ha hc
    simp only [List.mem_singleton] at hc
    subst hc
    exact ht ha
  · simp only [hids]
    exact hnd
  · simp only [hids]
    exact hlt

/-- A call of `registerHook` keeps the invariant, never takes a symbol back,
and an identity it returns is a symbol it allocated. -/
theorem registerHook_inv (position type hook : Val) (s : State) (h : Inv s) :
    Inv (registerHook position type hook s).2
    ∧ s.symbols ≤ (registerHook position type hook s).2.symbols
    ∧ ∀ uid, (registerHook position type hook s).1 = .ok (.sym uid) →
        s.symbols ≤ uid ∧ uid < (registerHook position type hook s).2.symbols := by
  by_cases hv : typeOf position ≠ "string" ∨ typeOf type ≠ "string" ∨ typeOf hook ≠ "function"
  · rw [registerHook_invalid position type hook s hv]
    refine ⟨h, le_refl _, ?_⟩
    intro uid hc
    simp at hc
  · simp only [not_or, not_not] at hv
    obtain ⟨p, rfl⟩ := (typeOf_string_iff _).1 hv.1
    obtain ⟨t, rfl⟩ := (typeOf_string_iff _).1 hv.2.1
    obtain ⟨f, rfl⟩ := (typeOf_function_iff _).1 hv.2.2
    obtain ⟨H, n⟩ := s
    cases hl : H.lookup t with
    | some l =>
      rw [registerHook_own p t f ⟨H, n⟩ l hl]
      obtain ⟨pre, post, hH, h1, h2⟩ := lookup_split H t l h.1 hl
      subst hH
      simp only [setOwn]
      rw [map_replace_middle pre post t l _ h1 h2]
      refine ⟨inv_push pre post t l _ n rfl h, by simp, ?_⟩
      intro uid hc
      simp only [Except.ok.injEq, Val.sym.injEq] at hc
      subst hc
      simp
    | none =>
      by_cases hk : t ∈ objectPrototypeKeys
      · rw [registerHook_inherited p t f ⟨H, n⟩ hl hk]
        refine ⟨inv_mono H n (n + 1) h (by omega), by simp, ?_⟩
        intro uid hc
        simp at hc
      · rw [registerHook_absent p t f ⟨H, n⟩ hl hk]
        have ht : t ∉ H.map Prod.fst := (lookup_eq_none_iff _ _).1 hl
        have h3 := inv_push H [] t [] ⟨p, n, f⟩ n rfl (inv_add_key H n t h ht)
        refine ⟨by simpa using h3, by simp, ?_⟩
        intro uid hc
        simp only [Except.ok.injEq, Val.sym.injEq] at hc
        subst hc
        simp

theorem registerElement_inv (position : Val) (type : String) (hook : Val) (s : State)
    (h : Inv s) :
    Inv (registerElement position type hook s).2
    ∧ s.symbols ≤ (registerElement position type hook s).2.symbols
    ∧ ∀ uid, (registerElement position type hook s).1 = .ok (.sym uid) →
        s.symbols ≤ uid ∧ uid < (registerElement position type hook s).2.symbols := by
  unfold registerElement
  by_cases hf : typeOf hook = "function"
  · simp only [hf, if_true]
    exact registerHook_inv position (.str type) hook s h
  · simp only [hf, if_false]
    refine ⟨h, le_refl _, ?_⟩
    intro uid hc
    simp at hc

theorem symbolsOf_cons (v : Val) (vs : List Val) :
    symbolsOf (v :: vs) = symbolsOf [v] ++ symbolsOf vs := by
  cases v <;> simp [symbolsOf, List.filterMap_cons]

theorem mem_symbolsOf_singleton (v : Val) (i : Nat) :
    i ∈ symbolsOf [v] ↔ v = .sym i := by
  cases v <;> simp [symbolsOf, List.filterMap_cons, eq_comm]

theorem nodup_symbolsOf_singleton (v : Val) : (symbolsOf [v]).Nodup := by
  cases v <;> simp [symbolsOf, List.filterMap_cons]

/-- The `map` of `registerHooks` over one array keeps the invariant, and the
symbols of the array it returns are distinct and were allocated by it. -/
theorem registerEach_inv (position : Val) (type : String) :
    ∀ (hs : List Val) (s : State), Inv s →
      Inv (registerEach position type hs s).2
      ∧ s.symbols ≤ (registerEach position type hs s).2.symbols
      ∧ ∀ vs, (registerEach position type hs s).1 = .ok vs →
          (symbolsOf vs).Nodup
          ∧ ∀ i ∈ symbolsOf vs,
              s.symbols ≤ i ∧ i < (registerEach position type hs s).2.symbols := by
  intro hs
  induction hs with
  | nil =>
    intro s h
    refine ⟨h, le_refl _, ?_⟩
    intro vs hvs
    simp only [registerEach, Except.ok.injEq] at hvs
    subst hvs
    simp [symbolsOf]
  | cons x xs ih =>
    intro s h
    have he := registerElement_inv position type x s h
    cases hstep : registerElement position type x s with
    | mk r s1 =>
      rw [hstep] at he
      simp only at he
      cases r with
      | error e =>
        simp only [registerEach, hstep]
        refine ⟨he.1, he.2.1, ?_⟩
        intro vs hvs
        simp at hvs
      | ok v =>
        have hr := ih s1 he.1
        cases hrest : registerEach position type xs s1 with
        | mk r2 s2 =>
          rw [hrest] at hr
          simp only at hr
          cases r2 with
          | error e =>
            simp only [registerEach, hstep, hrest]
            refine ⟨hr.1, le_trans he.2.1 hr.2.1, ?_⟩
            intro vs hvs
            simp at hvs
          | ok ws =>
            simp only [registerEach, hstep, hrest]
            refine ⟨hr.1, le_trans he.2.1 hr.2.1, ?_⟩
            intro vs hvs
            simp only [Except.ok.injEq] at hvs
            subst hvs
            obtain ⟨hnd, hb⟩ := hr.2.2 ws rfl
            rw [symbolsOf_cons]
            constructor
            · rw [List.nodup_append]
              refine ⟨nodup_symbolsOf_singleton v, hnd, ?_⟩
              intro a ha hc
              rw [mem_symbolsOf_singleton] at ha
              have h1 := he.2.2 a (by rw [ha])
              have h2 := hb a hc
              omega
            · intro i hi
              rw [List.mem_append] at hi
              rcases hi with hi | hi
              · rw [mem_symbolsOf_singleton] at hi
                have h1 := he.2.2 i (by rw [hi])
                have := hr.2.1
                omega
              · have h2 := hb i hi
                have := he.2.1
                omega

theorem symbolsOfResult_append (r1 r2 : List (String × Val)) :
    symbolsOfResult (r1 ++ r2) = symbolsOfResult r1 ++ symbolsOfResult r2 := by
  induction r1 with
  | nil => rfl
  | cons e rest ih => simp [symbolsOfResult, ih]

theorem symbolsOfResult_middle (pre post : List (String × Val)) (k : String) (v : Val) :
    symbolsOfResult (pre ++ (k, v) :: post)
      = symbolsOfResult pre ++ (symbolsOfEntry v ++ symbolsOfResult post) := by
  rw [symbolsOfResult_append]
  rfl

theorem any_key_iff (result : List (String × Val)) (k : String) :
    (result.any fun e => e.1 == k) = true ↔ k ∈ result.map Prod.fst := by
  simp only [List.any_eq_true, beq_iff_eq, List.mem_map]

/-- The assignment `result[type] = v` of fresh symbols keeps the invariant of
the result. -/
theorem setResult_inv (result : List (String × Val)) (k : String) (v : Val) (lo hi hi1 : Nat)
    (h : ResultInv result lo hi) (hle : hi ≤ hi1) (hlo : lo ≤ hi)
    (hnd : (symbolsOfEntry v).Nodup)
    (hb : ∀ i ∈ symbolsOfEntry v, hi ≤ i ∧ i < hi1) :
    ResultInv (setResult result k v) lo hi1 := by
  obtain ⟨hk, hs, hr⟩ := h
  unfold setResult
  by_cases hp : k = "__proto__"
  · simp only [hp, if_true]
    refine ⟨hk, hs, ?_⟩
    intro i hi
    have := hr i hi
    omega
  · simp only [hp, if_false]
    by_cases ha : (result.any fun e => e.1 == k) = true
    · simp only [ha, if_true]
      have hmem := (any_key_iff result k).1 ha
      cases hl : result.lookup k with
      | none => exact absurd hmem ((lookup_eq_none_iff result k).1 hl)
      | some v0 =>
        obtain ⟨pre, post, hH, h1, h2⟩ := lookup_split result k v0 hk hl
        subst hH
        rw [map_replace_middle pre post k v0 v h1 h2]
        rw [symbolsOfResult_middle] at hs hr
        refine ⟨?_, ?_, ?_⟩
        · simpa using hk
        · rw [symbolsOfResult_middle]
          simp only [List.nodup_append, List.disjoint_left, List.mem_append] at hs ⊢
          refine ⟨hs.1, ⟨hnd, hs.2.1.2.1, ?_⟩, ?_⟩
          · intro a ha1 hc
            have := hb a ha1
            have := hr a (by simp [hc])
            omega
          · intro a ha1 hc
            rcases hc with hc | hc
            · have := hb a hc
              have := hr a (by simp [ha1])
              omega
            · exact hs.2.2 ha1 (Or.inr hc)
        · intro i hi
          rw [symbolsOfResult_middle] at hi
          simp only [List.mem_append] at hi
          rcases hi with hi | hi | hi
          · have := hr i (by simp [hi]); omega
          · have := hb i hi; omega
          · have := hr i (by simp [hi]); omega
    · have hnot : k ∉ result.map Prod.fst := fun hc => ha ((any_key_iff result k).2 hc)
      simp only [ha, Bool.false_eq_true, if_false]
      refine ⟨?_, ?_, ?_⟩
      · simp only [List.map_append, List.map_cons, List.map_nil]
        rw [List.nodup_append]
        refine ⟨hk, by simp, ?_⟩
        intro a ha1 hc
        simp only [List.mem_singleton] at hc
        subst hc
        exact hnot ha1
      · rw [symbolsOfResult_append]
        simp only [symbolsOfResult, List.append_nil]
        rw [List.nodup_append]
        refine ⟨hs, hnd, ?_⟩
        intro a ha1 hc
        have := hb a hc
        have := hr a ha1
        omega
      · intro i hi
        rw [symbolsOfResult_append] at hi
        simp only [symbolsOfResult, List.append_nil, List.mem_append] at hi
        rcases hi with hi | hi
        · have := hr i hi; omega
        · have := hb i hi; omega

/-- One round of the `forEach` of `registerHooks` keeps both invariants. -/
theorem registerEntry_inv (position : Val) (type : String) (hooks : Val)
    (result : List (String × Val)) (s : State) (lo : Nat)
    (h : Inv s) (hr : ResultInv result lo s.symbols) (hlo : lo ≤ s.symbols) :
    Inv (registerEntry position type hooks result s).2
    ∧ s.symbols ≤ (registerEntry position type hooks result s).2.symbols
    ∧ ∀ result1, (registerEntry position type hooks result s).1 = .ok result1 →
        ResultInv result1 lo (registerEntry position type hooks result s).2.symbols := by
  unfold registerEntry
  by_cases hf : typeOf hooks = "function"
  · simp only [hf, if_true]
    have he := registerHook_inv position (.str type) hooks s h
    cases hstep : registerHook position (.str type) hooks s with
    | mk r s1 =>
      rw [hstep] at he
      simp only at he
      cases r with
      | error e =>
        refine ⟨he.1, he.2.1, ?_⟩
        intro result1 hc
        simp at hc
      | ok v =>
        refine ⟨he.1, he.2.1, ?_⟩
        intro result1 hc
        simp only [Except.ok.injEq] at hc
        subst hc
        apply setResult_inv result type (.arr [v]) lo s.symbols s1.symbols hr he.2.1 hlo
        · exact nodup_symbolsOf_singleton v
        · intro i hi
          simp only [symbolsOfEntry] at hi
          rw [mem_symbolsOf_singleton] at hi
          exact he.2.2 i (by rw [hi])
  · simp only [hf, if_false]
    have hundef : ∀ s0 : State, s0 = s →
        ResultInv (setResult result type .undefined) lo s0.symbols := by
      intro s0 hs0
      subst hs0
      apply setResult_inv result type .undefined lo s0.symbols s0.symbols hr (le_refl _) hlo
      · simp [symbolsOfEntry]
      · intro i hi
        simp [symbolsOfEntry] at hi
    cases hooks with
    | arr elems =>
      simp only
      have he := registerEach_inv position type elems s h
      cases hstep : registerEach position type elems s with
      | mk r s1 =>
        rw [hstep] at he
        simp only at he
        cases r with
        | error e =>
          refine ⟨he.1, he.2.1, ?_⟩
          intro result1 hc
          simp at hc
        | ok vs =>
          refine ⟨he.1, he.2.1, ?_⟩
          intro result1 hc
          simp only [Except.ok.injEq] at hc
          subst hc
          obtain ⟨hnd, hb⟩ := he.2.2 vs rfl
          exact setResult_inv result type (.arr vs) lo s.symbols s1.symbols hr he.2.1 hlo hnd hb
    | undefined | null | bool _ | num _ | str _ | sym _ | fn _ | obj _ =>
      refine ⟨h, le_refl _, ?_⟩
      intro result1 hc
      simp only [Except.ok.injEq] at hc
      subst hc
      exact hundef s rfl

/-- The `forEach` of `registerHooks` keeps both invariants. -/
theorem registerEntries_inv (position : Val) :
    ∀ (entries result : List (String × Val)) (s : State) (lo : Nat),
      Inv s → ResultInv result lo s.symbols → lo ≤ s.symbols →
      Inv (registerEntries position entries result s).2
      ∧ s.symbols ≤ (registerEntries position entries result s).2.symbols
      ∧ ∀ result1, (registerEntries position entries result s).1 = .ok result1 →
          ResultInv result1 lo (registerEntries position entries result s).2.symbols := by
  intro entries
  induction entries with
  | nil =>
    intro result s lo h hr _
    refine ⟨h, le_refl _, ?_⟩
    intro result1 hc
    simp only [registerEntries, Except.ok.injEq] at hc
    subst hc
    exact hr
  | cons e rest ih =>
    intro result s lo h hr hlo
    obtain ⟨type, hooks⟩ := e
    have he := registerEntry_inv position type hooks result s lo h hr hlo
    cases hstep : registerEntry position type hooks result s with
    | mk r s1 =>
      rw [hstep] at he
      simp only at he
      cases r with
      | error e =>
        simp only [registerEntries, hstep]
        refine ⟨he.1, he.2.1, ?_⟩
        intro result1 hc
        simp at hc
      | ok result0 =>
        simp only [registerEntries, hstep]
        have hrest := ih result0 s1 lo he.1 (he.2.2 result0 rfl) (le_trans hlo he.2.1)
        exact ⟨hrest.1, le_trans he.2.1 hrest.2.1, hrest.2.2⟩

/-- What one call owes the invariant: it keeps it, takes no symbol back, and
hands out distinct identities that it allocated itself. -/
theorem registerHook_step (position type hook : Val) (s : State) (h : Inv s) :
    Inv (registerHook position type hook s).2
    ∧ s.symbols ≤ (registerHook position type hook s).2.symbols
    ∧ (issued (registerHook position type hook s).1).Nodup
    ∧ ∀ i ∈ issued (registerHook position type hook s).1,
        s.symbols ≤ i ∧ i < (registerHook position type hook s).2.symbols := by
  have he := registerHook_inv position type hook s h
  refine ⟨he.1, he.2.1, ?_⟩
  by_cases hv : typeOf position ≠ "string" ∨ typeOf type ≠ "string" ∨ typeOf hook ≠ "function"
  · rw [registerHook_invalid position type hook s hv]
    simp [issued]
  · simp only [not_or, not_not] at hv
    obtain ⟨p, rfl⟩ := (typeOf_string_iff _).1 hv.1
    obtain ⟨t, rfl⟩ := (typeOf_string_iff _).1 hv.2.1
    obtain ⟨f, rfl⟩ := (typeOf_function_iff _).1 hv.2.2
    rcases registerHook_valid_cases p t f s with ⟨H, hH⟩ | hH
    · rw [hH]
      simp [issued]
    · rw [hH]
      simp [issued]

theorem registerHooks_step (position structTypes : Val) (s : State) (h : Inv s) :
    Inv (registerHooks position structTypes s).2
    ∧ s.symbols ≤ (registerHooks position structTypes s).2.symbols
    ∧ (issued (registerHooks position structTypes s).1).Nodup
    ∧ ∀ i ∈ issued (registerHooks position structTypes s).1,
        s.symbols ≤ i ∧ i < (registerHooks position structTypes s).2.symbols := by
  unfold registerHooks
  by_cases hp : typeOf position ≠ "string"
  · rw [if_pos hp]
    exact ⟨h, le_refl _, by simp [issued], by simp [issued]⟩
  · rw [if_neg hp]
    by_cases ho : typeOf structTypes ≠ "object"
    · rw [if_pos ho]
      exact ⟨h, le_refl _, by simp [issued], by simp [issued]⟩
    · rw [if_neg ho]
      cases hent : ownEntries structTypes with
      | none =>
        simp only
        exact ⟨h, le_refl _, by simp [issued], by simp [issued]⟩
      | some entries =>
        simp only
        have hr0 : ResultInv [] s.symbols s.symbols := by
          simp [ResultInv, symbolsOfResult]
        have he := registerEntries_inv position entries [] s s.symbols h hr0 (le_refl _)
        cases hstep : registerEntries position entries [] s with
        | mk r s1 =>
          rw [hstep] at he
          simp only at he
          cases r with
          | error e =>
            simp only
            exact ⟨he.1, he.2.1, by simp [issued], by simp [issued]⟩
          | ok result =>
            simp only
            obtain ⟨_, hnd, hb⟩ := he.2.2 result rfl
            exact ⟨he.1, he.2.1, by simpa [issued] using hnd, by simpa [issued] using hb⟩

theorem allIds_map_filter_sublist (id : Val) (H : Hooks) :
    (allIds (H.map fun e => (e.1, e.2.filter fun x => idDiffers x id))).Sublist (allIds H) := by
  induction H with
  | nil => simp [allIds]
  | cons e rest ih =>
    simp only [List.map_cons, allIds]
    exact List.Sublist.append ((List.filter_sublist _).map _) ih

theorem unregisterHook_step (id : Val) (s : State) (h : Inv s) :
    Inv (unregisterHook id s).2
    ∧ s.symbols ≤ (unregisterHook id s).2.symbols
    ∧ (issued (unregisterHook id s).1).Nodup
    ∧ ∀ i ∈ issued (unregisterHook id s).1,
        s.symbols ≤ i ∧ i < (unregisterHook id s).2.symbols := by
  refine ⟨?_, le_refl _, by simp [issued, unregisterHook], by simp [issued, unregisterHook]⟩
  obtain ⟨hwf, hnd, hlt⟩ := h
  have hh := unregisterHook_hooks id s hwf
  have hsub := allIds_map_filter_sublist id s.hooks
  refine ⟨?_, ?_, ?_⟩
  · rw [hh]
    unfold WellFormed
    rw [ownKeys_map_filter]
    exact hwf
  · rw [hh]
    exact hnd.sublist hsub
  · rw [hh]
    intro i hi
    exact hlt i (hsub.subset hi)

theorem clearHooks_step (s : State) (_h : Inv s) :
    Inv (clearHooks s).2
    ∧ s.symbols ≤ (clearHooks s).2.symbols
    ∧ (issued (clearHooks s).1).Nodup
    ∧ ∀ i ∈ issued (clearHooks s).1, s.symbols ≤ i ∧ i < (clearHooks s).2.symbols := by
  refine ⟨?_, le_refl _, by simp [issued, clearHooks], by simp [issued, clearHooks]⟩
  have hh := clearHooks_hooks s
  refine ⟨?_, ?_, ?_⟩
  · rw [hh]; simp [WellFormed, ownKeys]
  · rw [hh]; simp [allIds]
  · rw [hh]; simp [allIds]

theorem op_step (op : Op) (s : State) (h : Inv s) :
    Inv (op.run s).2
    ∧ s.symbols ≤ (op.run s).2.symbols
    ∧ (issued (op.run s).1).Nodup
    ∧ ∀ i ∈ issued (op.run s).1, s.symbols ≤ i ∧ i < (op.run s).2.symbols := by
  cases op with
  | registerHook position type hook => exact registerHook_step position type hook s h
  | registerPrehook type hook => exact registerHook_step (.str "pre") type hook s h
  | registerPosthook type hook => exact registerHook_step (.str "post") type hook s h
  | registerHooks position structTypes => exact registerHooks_step position structTypes s h
  | registerPrehooks structTypes => exact registerHooks_step (.str "pre") structTypes s h
  | registerPosthooks structTypes => exact registerHooks_step (.str "post") structTypes s h
  | unregisterHook id => exact unregisterHook_step id s h
  | clearHooks => exact clearHooks_step s h

/-- Along any sequence of calls the invariant is kept and the identities
handed out are distinct symbols allocated after the start. -/
theorem runOps_inv (ops : List Op) :
    ∀ s : State, Inv s →
      Inv (runOps ops s)
      ∧ s.symbols ≤ (runOps ops s).symbols
      ∧ (issuedBy ops s).Nodup
      ∧ ∀ i ∈ issuedBy ops s, s.symbols ≤ i ∧ i < (runOps ops s).symbols := by
  induction ops with
  | nil =>
    intro s h
    exact ⟨h, le_refl _, by simp [issuedBy], by simp [issuedBy]⟩
  | cons op ops ih =>
    intro s h
    obtain ⟨h1, h2, h3, h4⟩ := op_step op s h
    obtain ⟨k1, k2, k3, k4⟩ := ih (op.run s).2 h1
    simp only [runOps, issuedBy]
    refine ⟨k1, le_trans h2 k2, ?_, ?_⟩
    · rw [List.nodup_append]
      refine ⟨h3, k3, ?_⟩
      intro a ha hc
      have := h4 a ha
      have := k4 a hc
      omega
    · intro i hi
      rw [List.mem_append] at hi
      rcases hi with hi | hi
      · have := h4 i hi
        omega
      · have := k4 i hi
        omega

/-- Every reachable state satisfies the invariant. -/
theorem reachable_inv (s : State) (h : Reachable s) : Inv s := by
  obtain ⟨ops, rfl⟩ := h
  exact (runOps_inv ops State.init inv_init).1

/-- Claim C4: in the state reached from the freshly loaded module by any
sequence of calls of the registration, unregistration and clearing functions,
no two records of the registry, under one type or under two, carry the same
identity; and the identities returned by the registrations of the sequence
are pairwise distinct, whether or not their hooks were unregistered or
cleared since. -/
theorem identities_unique (ops : List Op) :
    (allIds (runOps ops State.init).hooks).Nodup ∧ (issuedBy ops State.init).Nodup := by
  have h := runOps_inv ops State.init inv_init
  exact ⟨h.1.2.1, h.2.2.1⟩

/-! ## The middleware -/

theorem callHooks_quiet (env : Env) (hq : Quiet env) (store action : Val) :
    ∀ (hs : List Nat) (s : State),
      (callHooks env store action hs s).1 = hookCalls store action hs
      ∧ (callHooks env store action hs s).2.1 = .ok () := by
  intro hs
  induction hs with
  | nil => intro s; exact ⟨rfl, rfl⟩
  | cons x xs ih =>
    intro s
    obtain ⟨v, s1, hv⟩ := hq x [store, action] s
    have h1 := ih s1
    simp only [callHooks, hv, hookCalls, List.map_cons]
    cases hc : callHooks env store action xs s1 with
    | mk cs rest =>
      cases rest with
      | mk r s2 =>
        rw [hc] at h1
        simp only [hookCalls] at h1
        simp only [h1.1, h1.2, and_self]

/-- In a quiet environment a dispatch whose two lookups succeed calls the
pre-hooks, then the continuation, then the post-hooks, and returns what the
continuation returned. -/
theorem middleware_quiet (env : Env) (hq : Quiet env) (store action : Val) (n : Nat)
    (s : State) (pre post : List Nat)
    (hpre : getTheHooksAt env s action "pre" = .ok pre)
    (hpost : getTheHooksAt env s action "post" = .ok post) :
    (middleware env store (.fn n) action s).calls
      = hookCalls store action pre ++ [⟨n, [action]⟩] ++ hookCalls store action post
    ∧ (middleware env store (.fn n) action s).result
      = (env.call n [action] (stateAfterHooks env store action pre s)).1
    ∧ ∃ v, (middleware env store (.fn n) action s).result = .ok v := by
  have h1 := callHooks_quiet env hq store action pre s
  unfold stateAfterHooks
  cases hc1 : callHooks env store action pre s with
  | mk c1 rest1 =>
    cases rest1 with
    | mk r1 s1 =>
      rw [hc1] at h1
      simp only at h1
      obtain ⟨h1a, h1b⟩ := h1
      subst h1a
      subst h1b
      obtain ⟨v, s2, hv⟩ := hq n [action] s1
      have h2 := callHooks_quiet env hq store action post s2
      cases hc2 : callHooks env store action post s2 with
      | mk c3 rest3 =>
        cases rest3 with
        | mk r3 s3 =>
          rw [hc2] at h2
          simp only at h2
          obtain ⟨h2a, h2b⟩ := h2
          subst h2a
          subst h2b
          simp only [middleware, hpre, hpost, hc1, hv, hc2]
          exact ⟨trivial, trivial, v, rfl⟩

theorem getTheHooksAt_own (env : Env) (s : State) (action : Val) (t : String)
    (l : List HookRecord) (position : String)
    (ht : actionType action = .str t) (hl : s.hooks.lookup t = some l) :
    getTheHooksAt env s action position = .ok (callbacksAt l position) := by
  have htruthy : truthy action = true := by
    cases action <;> simp [actionType] at ht
    rfl
  have hslot : hooksOfAction env s.hooks action = .own l := by
    simp only [hooksOfAction, ht, toPropertyKey]
    exact (getHooks_own_iff _ _ _).2 hl
  simp only [getTheHooksAt, htruthy, hslot, if_true, callbacksAt]

/-! ## The order in which `Object.keys` lists the keys -/

theorem unregisterAt_eq_map (id : Val) (H : Hooks) (hwf : WellFormed H) (k : String) :
    unregisterAt id H k
      = H.map fun e => if e.1 = k then (e.1, e.2.filter fun x => idDiffers x id) else e := by
  unfold unregisterAt
  cases hl : H.lookup k with
  | none =>
    have hk := (lookup_eq_none_iff H k).1 hl
    simp only
    symm
    have hid : ∀ e ∈ H, (fun e : String × List HookRecord =>
        if e.1 = k then (e.1, e.2.filter fun x => idDiffers x id) else e) e
          = (fun e : String × List HookRecord => e) e := by
      intro e he
      have : ¬ e.1 = k := fun hc => hk (hc ▸ List.mem_map_of_mem Prod.fst he)
      simp only [this, if_false]
    rw [List.map_congr_left hid]
    simp
  | some l =>
    obtain ⟨pre, post, hH, h1, h2⟩ := lookup_split H k l hwf hl
    subst hH
    simp only [setOwn]
    rw [map_replace_middle pre post k l _ h1 h2]
    simp only [List.map_append, List.map_cons, if_true]
    have c1 : ∀ (L : Hooks), k ∉ L.map Prod.fst →
        (L.map fun e => if e.1 = k then (e.1, e.2.filter fun x => idDiffers x id) else e)
          = L := by
      intro L hL
      have hid : ∀ e ∈ L, (fun e : String × List HookRecord =>
          if e.1 = k then (e.1, e.2.filter fun x => idDiffers x id) else e) e
            = (fun e : String × List HookRecord => e) e := by
        intro e he
        have : ¬ e.1 = k := fun hc => hL (hc ▸ List.mem_map_of_mem Prod.fst he)
        simp only [this, if_false]
      rw [List.map_congr_left hid]
      simp
    rw [c1 pre h1, c1 post h2]

/-- The loop of `unregisterHook` over any list of keys filters the lists of
these keys and no other. -/
theorem foldl_unregisterAt_any (id : Val) (ks : List String) :
    ∀ H : Hooks, WellFormed H →
      ks.foldl (unregisterAt id) H
        = H.map fun e =>
            if e.1 ∈ ks then (e.1, e.2.filter fun x => idDiffers x id) else e := by
  induction ks with
  | nil =>
    intro H _
    simp
  | cons k ks ih =>
    intro H hwf
    simp only [List.foldl_cons]
    have hstep := unregisterAt_eq_map id H hwf k
    have hwf1 : WellFormed (unregisterAt id H k) := by
      rw [hstep]
      unfold WellFormed ownKeys
      have : ∀ L : Hooks, (L.map fun e : String × List HookRecord =>
          if e.1 = k then (e.1, e.2.filter fun x => idDiffers x id) else e).map Prod.fst
            = L.map Prod.fst := by
        intro L
        induction L with
        | nil => rfl
        | cons e rest ihL => by_cases hc : e.1 = k <;> simp [hc, ihL]
      rw [this]
      exact hwf
    rw [ih _ hwf1, hstep, List.map_map]
    apply List.map_congr_left
    intro e _
    by_cases hc : e.1 = k
    · by_cases hm : e.1 ∈ ks
      · simp [Function.comp, hc, hm, List.filter_filter]
      · have hm' : k ∉ ks := by simpa [hc] using hm
        simp [Function.comp, hc, hm']
    · by_cases hm : e.1 ∈ ks
      · simp [Function.comp, hc, hm]
      · simp [Function.comp, hc, hm]

/-- The registry `unregisterHook` leaves does not depend on the order in which
`Object.keys(hooks)` lists the keys. -/
theorem foldl_unregisterAt_perm (id : Val) (H : Hooks) (hwf : WellFormed H)
    (ks : List String) (hks : ks.Perm (ownKeys H)) :
    ks.foldl (unregisterAt id) H = (ownKeys H).foldl (unregisterAt id) H := by
  rw [foldl_unregisterAt_any id ks H hwf, foldl_unregisterAt_eq_map id H hwf]
  apply List.map_congr_left
  intro e he
  have : e.1 ∈ ks := hks.mem_iff.2 (List.mem_map_of_mem Prod.fst he)
  simp only [this, if_true]

theorem idleEnv_quiet : Quiet idleEnv := by
  intro f args s
  exact ⟨.undefined, s, rfl⟩

theorem filter_idDiffers_split (l1 l2 : List HookRecord) (r : HookRecord)
    (h1 : ∀ x ∈ l1, x.id ≠ r.id) (h2 : ∀ x ∈ l2, x.id ≠ r.id) :
    ((l1 ++ r :: l2).filter fun x => idDiffers x (.sym r.id)) = l1 ++ l2 := by
  have e1 : (l1.filter fun x => idDiffers x (.sym r.id)) = l1 := by
    rw [List.filter_eq_self]
    intro x hx
    simpa [idDiffers] using h1 x hx
  have e2 : (l2.filter fun x => idDiffers x (.sym r.id)) = l2 := by
    rw [List.filter_eq_self]
    intro x hx
    simpa [idDiffers] using h2 x hx
  have e3 : idDiffers r (.sym r.id) = false := by simp [idDiffers]
  rw [List.filter_append, List.filter_cons, e1, e2, e3]
  simp

/-- In a state that satisfies the invariant, `unregisterHook` with the
identity of a record deletes that record from its list and changes nothing
else. -/
theorem unregisterHook_split (s : State) (hinv : Inv s) (t : String)
    (l1 l2 : List HookRecord) (r : HookRecord)
    (hl : s.hooks.lookup t = some (l1 ++ r :: l2)) :
    (∀ x ∈ l1 ++ l2, x.id ≠ r.id)
    ∧ ∃ pre post, s.hooks = pre ++ (t, l1 ++ r :: l2) :: post
        ∧ t ∉ pre.map Prod.fst
        ∧ (unregisterHook (.sym r.id) s).2.hooks = pre ++ (t, l1 ++ l2) :: post := by
  obtain ⟨hwf, hnd, _⟩ := hinv
  obtain ⟨pre, post, hH, hp1, hp2⟩ := lookup_split s.hooks t _ hwf hl
  rw [hH, allIds_middle] at hnd
  simp only [List.map_append, List.map_cons] at hnd
  rw [List.nodup_append] at hnd
  obtain ⟨_, hmid, hdis1⟩ := hnd
  rw [List.nodup_append] at hmid
  obtain ⟨hl', _, hdis2⟩ := hmid
  have hin : r.id ∈ l1.map (fun x => x.id) ++ r.id :: l2.map (fun x => x.id) := by simp
  have hpre : ∀ uid, Val.sym r.id = .sym uid → uid ∉ allIds pre := by
    intro uid hu hc
    simp only [Val.sym.injEq] at hu
    subst hu
    exact hdis1 hc (List.mem_append_left _ hin)
  have hpost : ∀ uid, Val.sym r.id = .sym uid → uid ∉ allIds post := by
    intro uid hu hc
    simp only [Val.sym.injEq] at hu
    subst hu
    exact hdis2 hin hc
  rw [List.nodup_append] at hl'
  obtain ⟨_, hr2, hdis3⟩ := hl'
  rw [List.nodup_cons] at hr2
  have h1 : ∀ x ∈ l1, x.id ≠ r.id := by
    intro x hx hc
    exact hdis3 (List.mem_map_of_mem (fun x => x.id) hx) (by simp [hc])
  have h2 : ∀ x ∈ l2, x.id ≠ r.id := by
    intro x hx hc
    exact hr2.1 (by rw [← hc]; exact List.mem_map_of_mem (fun x => x.id) hx)
  refine ⟨?_, pre, post, hH, hp1, ?_⟩
  · intro x hx
    rw [List.mem_append] at hx
    rcases hx with hx | hx
    · exact h1 x hx
    · exact h2 x hx
  · rw [unregisterHook_hooks _ s hwf, hH]
    simp only [List.map_append, List.map_cons]
    rw [map_filter_of_not_mem _ pre hpre, map_filter_of_not_mem _ post hpost,
      filter_idDiffers_split l1 l2 r h1 h2]

/-- Claim C5: in a reachable state, for a record `r` held in the list of type
`t`, the call `unregisterHook(r.id)` leaves under `t` the previous list with
that one record deleted and the others in their order, no record of that
identity remaining; the list of every other type and the keys are as before;
and a dispatch of an action of type `t` right after, in an environment where
no call raises, calls exactly the pre-hooks of the remaining records in order,
then the continuation, then the post-hooks of the remaining records in
order. -/
theorem unregisterHook_removes (s : State) (hs : Reachable s) (t : String)
    (l1 l2 : List HookRecord) (r : HookRecord)
    (hl : s.hooks.lookup t = some (l1 ++ r :: l2)) :
    (unregisterHook (.sym r.id) s).2.hooks.lookup t = some (l1 ++ l2)
    ∧ (∀ x ∈ l1 ++ l2, x.id ≠ r.id)
    ∧ (∀ j, j ≠ t → (unregisterHook (.sym r.id) s).2.hooks.lookup j = s.hooks.lookup j)
    ∧ ownKeys (unregisterHook (.sym r.id) s).2.hooks = ownKeys s.hooks
    ∧ ∀ (env : Env) (store action : Val) (n : Nat), Quiet env → actionType action = .str t →
        (middleware env store (.fn n) action (unregisterHook (.sym r.id) s).2).calls
          = hookCalls store action (callbacksAt (l1 ++ l2) "pre") ++ [⟨n, [action]⟩]
            ++ hookCalls store action (callbacksAt (l1 ++ l2) "post") := by
  have hinv := reachable_inv s hs
  obtain ⟨hne, pre, post, hH, hp1, hnew⟩ := unregisterHook_split s hinv t l1 l2 r hl
  have hlook : (unregisterHook (.sym r.id) s).2.hooks.lookup t = some (l1 ++ l2) := by
    rw [hnew]
    exact lookup_middle pre post t _ hp1
  refine ⟨hlook, hne, ?_, ?_, ?_⟩
  · intro j hj
    rw [hnew, hH]
    exact lookup_middle_ne pre post t j _ _ hj
  · rw [hnew, hH]
    simp [ownKeys]
  · intro env store action n hq ht
    exact (middleware_quiet env hq store action n _ _ _
      (getTheHooksAt_own env _ action t _ "pre" ht hlook)
      (getTheHooksAt_own env _ action t _ "post" ht hlook)).1

theorem unregisterHook_removes_witness :
    Reachable ⟨[("A", [⟨"pre", 0, 3⟩, ⟨"pre", 1, 4⟩, ⟨"post", 2, 5⟩])], 3⟩
    ∧ (unregisterHook (.sym 1)
        ⟨[("A", [⟨"pre", 0, 3⟩, ⟨"pre", 1, 4⟩, ⟨"post", 2, 5⟩])], 3⟩).2.hooks.lookup "A"
        = some [⟨"pre", 0, 3⟩, ⟨"post", 2, 5⟩]
    ∧ (middleware idleEnv .null (.fn 9) (.obj [("type", .str "A")])
        (unregisterHook (.sym 1)
          ⟨[("A", [⟨"pre", 0, 3⟩, ⟨"pre", 1, 4⟩, ⟨"post", 2, 5⟩])], 3⟩).2).calls
        = [⟨3, [.null, .obj [("type", .str "A")]]⟩, ⟨9, [.obj [("type", .str "A")]]⟩,
           ⟨5, [.null, .obj [("type", .str "A")]]⟩] :=
  have hr : Reachable ⟨[("A", [⟨"pre", 0, 3⟩, ⟨"pre", 1, 4⟩, ⟨"post", 2, 5⟩])], 3⟩ :=
    ⟨[.registerPrehook (.str "A") (.fn 3), .registerHook (.str "pre") (.str "A") (.fn 4),
      .registerHooks (.str "post") (.obj [("A", .fn 5)])], rfl⟩
  have h := unregisterHook_removes
    ⟨[("A", [⟨"pre", 0, 3⟩, ⟨"pre", 1, 4⟩, ⟨"post", 2, 5⟩])], 3⟩ hr "A"
    [⟨"pre", 0, 3⟩] [⟨"post", 2, 5⟩] ⟨"pre", 1, 4⟩ rfl
  ⟨hr, h.1, h.2.2.2.2 idleEnv .null (.obj [("type", .str "A")]) 9 idleEnv_quiet rfl⟩

/-- The two lookups of a dispatch succeed unless the action is truthy and its
type names a property of `Object.prototype` that `hooks` does not hold
itself. -/
theorem getTheHooksAt_ok (env : Env) (s : State) (action : Val) (position : String)
    (h : truthy action = false ∨ hooksOfAction env s.hooks action ≠ .inherited) :
    getTheHooksAt env s action position
      = .ok (callbacksAt (recordsFor env s action) position) := by
  unfold getTheHooksAt recordsFor
  by_cases ht : truthy action = true
  · simp only [ht, if_true]
    have h2 : hooksOfAction env s.hooks action ≠ .inherited := by
      rcases h with h | h
      · rw [ht] at h
        exact Bool.noConfusion h
      · exact h
    cases hslot : hooksOfAction env s.hooks action with
    | own l => rfl
    | inherited => exact absurd hslot h2
    | absent => rfl
  · simp only [ht, if_false]
    rfl

/-- The contract of the middleware away from the inherited names: in an
environment where no call raises, the dispatch calls the pre-hooks stored for
the action in registration order, then the continuation once, then the
post-hooks in registration order, and returns what the continuation
returned. -/
theorem middleware_calls (env : Env) (hq : Quiet env) (store action : Val) (n : Nat)
    (s : State)
    (h : truthy action = false ∨ hooksOfAction env s.hooks action ≠ .inherited) :
    (middleware env store (.fn n) action s).calls
      = hookCalls store action (callbacksAt (recordsFor env s action) "pre")
        ++ [⟨n, [action]⟩]
        ++ hookCalls store action (callbacksAt (recordsFor env s action) "post")
    ∧ (middleware env store (.fn n) action s).result
      = (env.call n [action]
          (stateAfterHooks env store action
            (callbacksAt (recordsFor env s action) "pre") s)).1 :=
  have h1 := middleware_quiet env hq store action n s _ _
    (getTheHooksAt_ok env s action "pre" h) (getTheHooksAt_ok env s action "post" h)
  ⟨h1.1, h1.2.1⟩

/-! ## Types named like a property of `Object.prototype` -/

theorem clearHooks_eq (s : State) : clearHooks s = (.ok .undefined, ⟨[], s.symbols⟩) := by
  have h := clearHooks_hooks s
  have h2 : (clearHooks s).2.symbols = s.symbols := rfl
  have h3 : (clearHooks s).1 = .ok .undefined := rfl
  cases hc : clearHooks s with
  | mk r s1 =>
    rw [hc] at h h2 h3
    cases s1 with
    | mk a b =>
      simp only at h h2 h3
      rw [h, h2, h3]

/-- A dispatch of an action whose type is a name of `Object.prototype` that
`hooks` does not hold itself raises before any call is made. -/
theorem middleware_inherited (env : Env) (store next : Val) (props : List (String × Val))
    (t : String) (s : State) (ht : props.lookup "type" = some (.str t))
    (hk : t ∈ objectPrototypeKeys) (hl : s.hooks.lookup t = none) :
    (middleware env store next (.obj props) s).calls = []
    ∧ (middleware env store next (.obj props) s).result = .error .typeError
    ∧ (middleware env store next (.obj props) s).state = s := by
  have hslot : hooksOfAction env s.hooks (.obj props) = .inherited := by
    simp only [hooksOfAction, actionType, ht, Option.getD_some, toPropertyKey]
    exact (getHooks_inherited_iff _ _).2 ⟨hl, hk⟩
  have hpre : getTheHooksAt env s (.obj props) "pre" = .error .typeError := by
    simp [getTheHooksAt, truthy, hslot]
  simp only [middleware, hpre, and_self]

/-- Claim C1, at the type `"toString"`: in the freshly loaded module, whatever
the functions do, the dispatch of `{type: 'toString'}` makes no call at all,
not even of the continuation, and raises a `TypeError` (the read
`hooks['toString']` finds the inherited function, which has no `filter`). -/
theorem middleware_toString_raises (env : Env) (store : Val) (n : Nat) :
    (middleware env store (.fn n) (.obj [("type", .str "toString")]) State.init).calls = []
    ∧ (middleware env store (.fn n) (.obj [("type", .str "toString")]) State.init).result
        = .error .typeError :=
  ⟨rfl, rfl⟩

/-- Claim C8, at the type `"constructor"`: after `clearHooks()` the registry
has no key, yet the dispatch of `{type: 'constructor'}` makes no call at all,
not even of the continuation, and raises a `TypeError`. -/
theorem clearHooks_then_constructor_raises (env : Env) (store : Val) (n : Nat) (s : State) :
    (clearHooks s).2.hooks = []
    ∧ (middleware env store (.fn n) (.obj [("type", .str "constructor")])
        (clearHooks s).2).calls = []
    ∧ (middleware env store (.fn n) (.obj [("type", .str "constructor")])
        (clearHooks s).2).result = .error .typeError := by
  rw [clearHooks_eq]
  exact ⟨rfl, rfl, rfl⟩

/-- Claim C9, at the mapping `{constructor: f}`: in the freshly loaded module
the call `registerHooks('pre', {constructor: f})` returns no mapping; it
raises the `TypeError` of the inner `registerHook`. -/
theorem registerHooks_constructor_raises :
    registerHooks (.str "pre") (.obj [("constructor", .fn 1)]) State.init
      = (.error .typeError, ⟨[], 1⟩) := rfl

/-- Claim C10, at the mapping `{constructor: f, A: g}`: in the freshly loaded
module the call `registerHooks('pre', {constructor: f, A: g})` raises at the
first key and registers nothing, while the calls of `registerHook` for `f` and
for `g`, one after the other, leave the record of `g` under `A`. -/
theorem registerHooks_constructor_blocks :
    registerHooks (.str "pre") (.obj [("constructor", .fn 1), ("A", .fn 2)]) State.init
      = (.error .typeError, ⟨[], 1⟩)
    ∧ (registerHook (.str "pre") (.str "A") (.fn 2)
        (registerHook (.str "pre") (.str "constructor") (.fn 1) State.init).2).2
      = ⟨[("A", [⟨"pre", 1, 2⟩])], 2⟩ :=
  ⟨rfl, rfl⟩

/-! ## `registerHooks` away from the inherited names -/

theorem registerHook_fresh (p t : String) (f : Nat) (s : State)
    (hk : t ∉ objectPrototypeKeys) :
    (registerHook (.str p) (.str t) (.fn f) s).1 = .ok (.sym s.symbols)
    ∧ (registerHook (.str p) (.str t) (.fn f) s).2.symbols = s.symbols + 1 := by
  refine ⟨(registerHook_appends p t f s (Or.inl hk)).1, ?_⟩
  rcases registerHook_valid_cases p t f s with ⟨H, hH⟩ | hH
  · rw [hH]
  · rw [hH]

/-- On an array under a key that is no inherited name, the `map` of
`registerHooks` returns the described list and leaves the state that one call
of `registerHook` per function element leaves. -/
theorem registerEach_spec (p t : String) (hk : t ∉ objectPrototypeKeys) :
    ∀ (elems : List Val) (s : State),
      registerEach (.str p) t elems s
        = (.ok (expectedArray elems s.symbols),
           registerAll (.str p) (functionsOfArray t elems) s)
      ∧ (registerAll (.str p) (functionsOfArray t elems) s).symbols
        = s.symbols + countFunctions elems := by
  intro elems
  induction elems with
  | nil => intro s; exact ⟨rfl, rfl⟩
  | cons x xs ih =>
    intro s
    cases x with
    | fn f =>
      obtain ⟨h1, h2⟩ := registerHook_fresh p t f s hk
      obtain ⟨i1, i2⟩ := ih (registerHook (.str p) (.str t) (.fn f) s).2
      cases hr : registerHook (.str p) (.str t) (.fn f) s with
      | mk r s1 =>
        rw [hr] at h1 h2 i1 i2
        simp only at h1 h2 i1 i2
        subst h1
        constructor
        · simp only [registerEach, registerElement, typeOf, if_true, hr, i1, expectedArray,
            functionsOfArray, registerAll, h2]
        · simp only [functionsOfArray, registerAll, hr, i2, countFunctions, h2]
          omega
    | undefined | null | bool _ | num _ | str _ | sym _ | arr _ | obj _ =>
      obtain ⟨i1, i2⟩ := ih s
      constructor
      · simp [registerEach, registerElement, typeOf, i1, expectedArray, functionsOfArray]
      · simpa [functionsOfArray, countFunctions] using i2

theorem setResult_append (result : List (String × Val)) (k : String) (v : Val)
    (hp : k ≠ "__proto__") (hk : k ∉ result.map Prod.fst) :
    setResult result k v = result ++ [(k, v)] := by
  have ha : (result.any fun e => e.1 == k) = false := by
    cases h : (result.any fun e => e.1 == k) with
    | false => rfl
    | true => exact absurd ((any_key_iff result k).1 h) hk
  simp [setResult, hp, ha]

theorem proto_mem_objectPrototypeKeys : "__proto__" ∈ objectPrototypeKeys := by
  decide

/-- One round of the `forEach` of `registerHooks`, for a new key that is no
inherited name. -/
theorem registerEntry_spec (p t : String) (v : Val) (result : List (String × Val))
    (s : State) (hk : t ∉ objectPrototypeKeys) (hnew : t ∉ result.map Prod.fst) :
    registerEntry (.str p) t v result s
      = (.ok (result ++ [(t, expectedValue v s.symbols)]),
         registerAll (.str p) (functionsOf [(t, v)]) s)
    ∧ (registerAll (.str p) (functionsOf [(t, v)]) s).symbols
        = s.symbols + functionsIn v := by
  have hp : t ≠ "__proto__" := fun hc => hk (hc ▸ proto_mem_objectPrototypeKeys)
  cases v with
  | fn f =>
    obtain ⟨h1, h2⟩ := registerHook_fresh p t f s hk
    cases hr : registerHook (.str p) (.str t) (.fn f) s with
    | mk r s1 =>
      rw [hr] at h1 h2
      simp only at h1 h2
      subst h1
      constructor
      · simp only [registerEntry, typeOf, if_true, hr, expectedValue, functionsOf, registerAll,
          setResult_append result t _ hp hnew]
      · simp only [functionsOf, registerAll, hr, functionsIn, h2]
  | arr elems =>
    obtain ⟨i1, i2⟩ := registerEach_spec p t hk elems s
    constructor
    · simp [registerEntry, typeOf, i1, expectedValue, functionsOf,
        setResult_append result t _ hp hnew]
    · simpa [functionsOf, functionsIn] using i2
  | undefined | null | bool _ | num _ | str _ | sym _ | obj _ =>
    constructor
    · simp [registerEntry, typeOf, expectedValue, functionsOf, registerAll,
        setResult_append result t _ hp hnew]
    · simp [functionsOf, registerAll, functionsIn]

theorem registerAll_append (position : Val) (a b : List (String × Nat)) :
    ∀ s : State, registerAll position (a ++ b) s
      = registerAll position b (registerAll position a s) := by
  induction a with
  | nil => intro s; rfl
  | cons e rest ih =>
    intro s
    obtain ⟨k, f⟩ := e
    simp only [List.cons_append, registerAll]
    exact ih _

theorem functionsOf_cons (t : String) (v : Val) (rest : List (String × Val)) :
    functionsOf ((t, v) :: rest) = functionsOf [(t, v)] ++ functionsOf rest := by
  cases v <;> simp [functionsOf]

/-- The `forEach` of `registerHooks` over entries with distinct new keys, none
an inherited name. -/
theorem registerEntries_spec (p : String) :
    ∀ (entries result : List (String × Val)) (s : State),
      (entries.map Prod.fst).Nodup →
      (∀ e ∈ entries, e.1 ∉ objectPrototypeKeys) →
      (∀ e ∈ entries, e.1 ∉ result.map Prod.fst) →
      registerEntries (.str p) entries result s
        = (.ok (result ++ expectedResult entries s.symbols),
           registerAll (.str p) (functionsOf entries) s) := by
  intro entries
  induction entries with
  | nil =>
    intro result s _ _ _
    simp [registerEntries, expectedResult, functionsOf, registerAll]
  | cons e rest ih =>
    intro result s hnd hk hnew
    obtain ⟨t, v⟩ := e
    simp only [List.map_cons, List.nodup_cons] at hnd
    obtain ⟨h1, h2⟩ := registerEntry_spec p t v result s
      (hk (t, v) (List.mem_cons_self _ _)) (hnew (t, v) (List.mem_cons_self _ _))
    have hrest := ih (result ++ [(t, expectedValue v s.symbols)])
      (registerAll (.str p) (functionsOf [(t, v)]) s) hnd.2
      (fun e he => hk e (List.mem_cons_of_mem _ he))
      (by
        intro e he hc
        simp only [List.map_append, List.map_cons, List.map_nil, List.mem_append,
          List.mem_singleton] at hc
        rcases hc with hc | hc
        · exact hnew e (List.mem_cons_of_mem _ he) hc
        · exact hnd.1 (hc ▸ List.mem_map_of_mem Prod.fst he))
    simp only [registerEntries, h1]
    rw [hrest, h2, functionsOf_cons t v rest, registerAll_append]
    simp [expectedResult]

/-- The refinement of `registerHooks` away from the inherited names: for a
mapping with distinct keys, none of which names a property of
`Object.prototype`, the call returns the described mapping and leaves the
state that one call of `registerHook` per function of the mapping leaves. -/
theorem registerHooks_spec (p : String) (props : List (String × Val)) (s : State)
    (hnd : (props.map Prod.fst).Nodup)
    (hk : ∀ e ∈ props, e.1 ∉ objectPrototypeKeys) :
    registerHooks (.str p) (.obj props) s
      = (.ok (.obj (expectedResult props s.symbols)),
         registerAll (.str p) (functionsOf props) s) := by
  have h := registerEntries_spec p props [] s hnd hk (by simp)
  simp [registerHooks, typeOf, ownEntries, h]

theorem expectedResult_keys (props : List (String × Val)) :
    ∀ n, (expectedResult props n).map Prod.fst = props.map Prod.fst := by
  induction props with
  | nil => intro n; rfl
  | cons e rest ih =>
    intro n
    obtain ⟨k, v⟩ := e
    simp [expectedResult, ih]

theorem expectedArray_length (elems : List Val) :
    ∀ n, (expectedArray elems n).length = elems.length := by
  induction elems with
  | nil => intro n; rfl
  | cons x xs ih =>
    intro n
    cases x <;> simp [expectedArray, ih]

theorem expectedArray_no_false (elems : List Val) :
    ∀ n, Val.bool false ∉ expectedArray elems n := by
  induction elems with
  | nil => intro n; simp [expectedArray]
  | cons x xs ih =>
    intro n
    cases x <;> simp [expectedArray, ih]

/-! ## Calls made one after the other -/

theorem callHooks_eq_runSeq (env : Env) (store action : Val) :
    ∀ (hs : List Nat) (s : State),
      callHooks env store action hs s = runSeq env (hookCalls store action hs) s := by
  intro hs
  induction hs with
  | nil => intro s; rfl
  | cons x xs ih =>
    intro s
    simp only [callHooks, hookCalls, List.map_cons, runSeq]
    cases hc : env.call x [store, action] s with
    | mk r s1 =>
      cases r with
      | error e => rfl
      | ok v =>
        simp only
        have := ih s1
        simp only [hookCalls] at this
        rw [this]

theorem runSeq_append_error (env : Env) (b : List Call) (e : Thrown) :
    ∀ (a : List Call) (s : State) (made : List Call) (s1 : State),
      runSeq env a s = (made, .error e, s1) →
      runSeq env (a ++ b) s = (made, .error e, s1) := by
  intro a
  induction a with
  | nil =>
    intro s made s1 h
    simp [runSeq] at h
  | cons c cs ih =>
    intro s made s1 h
    simp only [List.cons_append, runSeq] at h ⊢
    cases hc : env.call c.callee c.args s with
    | mk r s2 =>
      rw [hc] at h
      cases r with
      | error e1 => exact h
      | ok v =>
        simp only at h ⊢
        cases hr : runSeq env cs s2 with
        | mk made1 rest1 =>
          cases rest1 with
          | mk r1 s3 =>
            rw [hr] at h
            simp only [Prod.mk.injEq] at h
            obtain ⟨h1, h2, h3⟩ := h
            subst h1 h2 h3
            rw [show cs.append b = cs ++ b from rfl, ih s2 made1 s3 hr]

theorem runSeq_append_ok (env : Env) (b : List Call) :
    ∀ (a : List Call) (s : State) (made : List Call) (s1 : State),
      runSeq env a s = (made, .ok (), s1) →
      runSeq env (a ++ b) s
        = (made ++ (runSeq env b s1).1, (runSeq env b s1).2.1, (runSeq env b s1).2.2) := by
  intro a
  induction a with
  | nil =>
    intro s made s1 h
    simp only [runSeq, Prod.mk.injEq] at h
    obtain ⟨h1, _, h3⟩ := h
    subst h1 h3
    simp
  | cons c cs ih =>
    intro s made s1 h
    simp only [List.cons_append, runSeq] at h ⊢
    cases hc : env.call c.callee c.args s with
    | mk r s2 =>
      rw [hc] at h
      cases r with
      | error e1 => simp at h
      | ok v =>
        simp only at h ⊢
        cases hr : runSeq env cs s2 with
        | mk made1 rest1 =>
          cases rest1 with
          | mk r1 s3 =>
            rw [hr] at h
            simp only [Prod.mk.injEq] at h
            obtain ⟨h1, h2, h3⟩ := h
            subst h1 h2 h3
            rw [show cs.append b = cs ++ b from rfl, ih s2 made1 s3 hr]
            simp

/-- The calls made are the given ones up to and including the first that
raises. -/
theorem runSeq_split (env : Env) (c : Call) (rest : List Call) (e : Thrown) :
    ∀ (done : List Call) (s s1 s2 : State),
      afterCalls env done s = some s1 →
      env.call c.callee c.args s1 = (.error e, s2) →
      runSeq env (done ++ c :: rest) s = (done ++ [c], .error e, s2) := by
  intro done
  induction done with
  | nil =>
    intro s s1 s2 h1 h2
    simp only [afterCalls, Option.some.injEq] at h1
    subst h1
    simp [runSeq, h2]
  | cons d ds ih =>
    intro s s1 s2 h1 h2
    simp only [afterCalls] at h1
    simp only [List.cons_append, runSeq]
    cases hc : env.call d.callee d.args s with
    | mk r s3 =>
      rw [hc] at h1
      cases r with
      | error e1 => simp at h1
      | ok v =>
        simp only at h1 ⊢
        rw [show ds.append (c :: rest) = ds ++ c :: rest from rfl, ih s3 s1 s2 h1 h2]

/-- The calls made are always an initial part of the given ones, and all of
them when none raises. -/
theorem runSeq_made (env : Env) :
    ∀ (l : List Call) (s : State),
      (∃ rest, (runSeq env l s).1 ++ rest = l)
      ∧ ((runSeq env l s).2.1 = .ok () → (runSeq env l s).1 = l) := by
  intro l
  induction l with
  | nil => intro s; exact ⟨⟨[], rfl⟩, fun _ => rfl⟩
  | cons c cs ih =>
    intro s
    simp only [runSeq]
    cases hc : env.call c.callee c.args s with
    | mk r s1 =>
      cases r with
      | error e =>
        simp only
        exact ⟨⟨cs, rfl⟩, fun h => by simp at h⟩
      | ok v =>
        simp only
        obtain ⟨⟨rest, h1⟩, h2⟩ := ih s1
        cases hr : runSeq env cs s1 with
        | mk made1 rest1 =>
          cases rest1 with
          | mk r1 s2 =>
            rw [hr] at h1 h2
            simp only at h1 h2 ⊢
            refine ⟨⟨rest, by rw [List.cons_append, h1]⟩, ?_⟩
            intro h
            rw [h2 h]

theorem middleware_of_inherited (env : Env) (store next action : Val) (s : State)
    (ht : truthy action = true) (hs : hooksOfAction env s.hooks action = .inherited) :
    middleware env store next action s = ⟨[], .error .typeError, s⟩ := by
  have hpre : getTheHooksAt env s action "pre" = .error .typeError := by
    simp [getTheHooksAt, ht, hs]
  simp only [middleware, hpre]

/-- Away from the inherited names, a dispatch makes the calls of its normal
call sequence one after the other until one raises, raises what that call
raised, and returns normally when none did. -/
theorem middleware_eq_runSeq (env : Env) (store action : Val) (n : Nat) (s : State)
    (h : truthy action = false ∨ hooksOfAction env s.hooks action ≠ .inherited) :
    (middleware env store (.fn n) action s).calls
      = (runSeq env (normalCalls env store n action s) s).1
    ∧ (middleware env store (.fn n) action s).state
      = (runSeq env (normalCalls env store n action s) s).2.2
    ∧ (∀ e, (runSeq env (normalCalls env store n action s) s).2.1 = .error e →
        (middleware env store (.fn n) action s).result = .error e)
    ∧ ((runSeq env (normalCalls env store n action s) s).2.1 = .ok () →
        ∃ v, (middleware env store (.fn n) action s).result = .ok v) := by
  have hpre := getTheHooksAt_ok env s action "pre" h
  have hpost := getTheHooksAt_ok env s action "post" h
  unfold normalCalls
  generalize callbacksAt (recordsFor env s action) "pre" = P at hpre
  generalize callbacksAt (recordsFor env s action) "post" = Q at hpost
  simp only [middleware, hpre, hpost, callHooks_eq_runSeq]
  cases hr1 : runSeq env (hookCalls store action P) s with
  | mk c1 rest1 =>
    cases rest1 with
    | mk r1 s1 =>
      cases r1 with
      | error e =>
        have e1 := runSeq_append_error env [⟨n, [action]⟩] e _ s c1 s1 hr1
        have e2 := runSeq_append_error env (hookCalls store action Q) e _ s c1 s1 e1
        rw [e2]
        simp
      | ok u =>
        cases hc : env.call n [action] s1 with
        | mk r s2 =>
          have e1 := runSeq_append_ok env [⟨n, [action]⟩] _ s c1 s1 hr1
          cases r with
          | error e =>
            have hn : runSeq env [⟨n, [action]⟩] s1 = ([⟨n, [action]⟩], .error e, s2) := by
              simp [runSeq, hc]
            rw [hn] at e1
            have e2 := runSeq_append_error env (hookCalls store action Q) e _ s _ s2 e1
            rw [e2]
            simp [hc]
          | ok v =>
            have hn : runSeq env [⟨n, [action]⟩] s1 = ([⟨n, [action]⟩], .ok (), s2) := by
              simp [runSeq, hc]
            rw [hn] at e1
            have e2 := runSeq_append_ok env (hookCalls store action Q) _ s _ s2 e1
            rw [e2]
            cases hr3 : runSeq env (hookCalls store action Q) s2 with
            | mk c3 rest3 =>
              cases rest3 with
              | mk r3 s3 =>
                cases r3 with
                | error e => simp [hc, hr3]
                | ok u3 => simp [hc, hr3]

/-- Claim C12: for an action whose lookups succeed, when the calls of the
normal call sequence (pre-hooks, continuation, post-hooks) before some call
`c` all return and `c` raises `e`, the dispatch makes exactly these calls and
`c`, no call after it, and raises `e` in the state `c` left. With `c` a
pre-hook the remaining pre-hooks, the continuation and the post-hooks are not
called; with `c` the continuation no post-hook is called; with `c` a post-hook
the remaining post-hooks are not called and the continuation's result is not
returned. -/
theorem middleware_failure (env : Env) (store action : Val) (n : Nat) (s s1 s2 : State)
    (h : truthy action = false ∨ hooksOfAction env s.hooks action ≠ .inherited)
    (done rest : List Call) (c : Call) (e : Thrown)
    (hsplit : normalCalls env store n action s = done ++ c :: rest)
    (hdone : afterCalls env done s = some s1)
    (hfail : env.call c.callee c.args s1 = (.error e, s2)) :
    (middleware env store (.fn n) action s).calls = done ++ [c]
    ∧ (middleware env store (.fn n) action s).result = .error e
    ∧ (middleware env store (.fn n) action s).state = s2 := by
  obtain ⟨h1, h2, h3, _⟩ := middleware_eq_runSeq env store action n s h
  have hr := runSeq_split env c rest e done s s1 s2 hdone hfail
  rw [← hsplit] at hr
  rw [hr] at h1 h2 h3
  exact ⟨h1, h3 e rfl, h2⟩

theorem middleware_failure_witness :
    (middleware failingEnv .null (.fn 9) (.obj [("type", .str "A")])
        ⟨[("A", [⟨"pre", 0, 3⟩, ⟨"pre", 1, 7⟩, ⟨"pre", 2, 4⟩, ⟨"post", 3, 5⟩])], 4⟩).calls
      = [⟨3, [.null, .obj [("type", .str "A")]]⟩, ⟨7, [.null, .obj [("type", .str "A")]]⟩]
    ∧ (middleware failingEnv .null (.fn 9) (.obj [("type", .str "A")])
        ⟨[("A", [⟨"pre", 0, 3⟩, ⟨"pre", 1, 7⟩, ⟨"pre", 2, 4⟩, ⟨"post", 3, 5⟩])], 4⟩).result
      = .error (.raised (.str "boom")) :=
  have h := middleware_failure failingEnv .null (.obj [("type", .str "A")]) 9
    ⟨[("A", [⟨"pre", 0, 3⟩, ⟨"pre", 1, 7⟩, ⟨"pre", 2, 4⟩, ⟨"post", 3, 5⟩])], 4⟩
    ⟨[("A", [⟨"pre", 0, 3⟩, ⟨"pre", 1, 7⟩, ⟨"pre", 2, 4⟩, ⟨"post", 3, 5⟩])], 4⟩
    ⟨[("A", [⟨"pre", 0, 3⟩, ⟨"pre", 1, 7⟩, ⟨"pre", 2, 4⟩, ⟨"post", 3, 5⟩])], 4⟩
    (Or.inr (by decide))
    [⟨3, [.null, .obj [("type", .str "A")]]⟩]
    [⟨4, [.null, .obj [("type", .str "A")]]⟩, ⟨9, [.obj [("type", .str "A")]]⟩,
     ⟨5, [.null, .obj [("type", .str "A")]]⟩]
    ⟨7, [.null, .obj [("type", .str "A")]]⟩ (.raised (.str "boom")) rfl rfl rfl
  ⟨h.1, h.2.1⟩

/-- Claim C17: the calls a dispatch makes are an initial part of the normal
call sequence computed from the registry as it is when the dispatch starts,
whatever the functions called do to the registry meanwhile; and when the
dispatch returns they are that whole sequence, so the post-hooks called are
exactly the post-position records held at the start. -/
theorem hooks_fixed_at_start (env : Env) (store action : Val) (n : Nat) (s : State) :
    (∃ rest, (middleware env store (.fn n) action s).calls ++ rest
        = normalCalls env store n action s)
    ∧ (∀ v, (middleware env store (.fn n) action s).result = .ok v →
        (middleware env store (.fn n) action s).calls = normalCalls env store n action s) := by
  by_cases h : truthy action = false ∨ hooksOfAction env s.hooks action ≠ .inherited
  · obtain ⟨h1, _, h3, _⟩ := middleware_eq_runSeq env store action n s h
    obtain ⟨hp, hall⟩ := runSeq_made env (normalCalls env store n action s) s
    rw [← h1] at hp hall
    refine ⟨hp, ?_⟩
    intro v hv
    apply hall
    cases hr : (runSeq env (normalCalls env store n action s) s).2.1 with
    | ok u => rfl
    | error e =>
      rw [h3 e hr] at hv
      exact Except.noConfusion hv
  · simp only [not_or, Bool.not_eq_false, not_not] at h
    rw [middleware_of_inherited env store (.fn n) action s h.1 h.2]
    exact ⟨⟨_, rfl⟩, fun v hv => Except.noConfusion hv⟩

theorem hooks_fixed_at_start_witness :
    (middleware meddlingEnv .null (.fn 9) (.obj [("type", .str "A")])
        ⟨[("A", [⟨"pre", 0, 3⟩, ⟨"post", 1, 5⟩])], 2⟩).result = .ok .undefined
    ∧ (middleware meddlingEnv .null (.fn 9) (.obj [("type", .str "A")])
        ⟨[("A", [⟨"pre", 0, 3⟩, ⟨"post", 1, 5⟩])], 2⟩).calls
      = [⟨3, [.null, .obj [("type", .str "A")]]⟩, ⟨9, [.obj [("type", .str "A")]]⟩,
         ⟨5, [.null, .obj [("type", .str "A")]]⟩]
    ∧ (middleware meddlingEnv .null (.fn 9) (.obj [("type", .str "A")])
        ⟨[("A", [⟨"pre", 0, 3⟩, ⟨"post", 1, 5⟩])], 2⟩).state
      = ⟨[("A", [⟨"post", 2, 8⟩])], 3⟩ :=
  ⟨rfl,
   (hooks_fixed_at_start meddlingEnv .null (.obj [("type", .str "A")]) 9
      ⟨[("A", [⟨"pre", 0, 3⟩, ⟨"post", 1, 5⟩])], 2⟩).2 .undefined rfl,
   rfl⟩

/-! ## The registry across a dispatch -/

theorem runSeq_frame (env : Env) :
    ∀ (l : List Call) (s : State),
      (∀ c ∈ (runSeq env l s).1, ∀ s1, (env.call c.callee c.args s1).2.hooks = s1.hooks) →
      (runSeq env l s).2.2.hooks = s.hooks := by
  intro l
  induction l with
  | nil => intro s _; rfl
  | cons c cs ih =>
    intro s h
    simp only [runSeq] at h ⊢
    have hc0 := fun (hm : ∀ s1, (env.call c.callee c.args s1).2.hooks = s1.hooks) => hm s
    cases hc : env.call c.callee c.args s with
    | mk r s1 =>
      rw [hc] at h hc0
      cases r with
      | error e =>
        simp only at h ⊢
        exact hc0 (h c (List.mem_singleton.2 rfl))
      | ok v =>
        simp only at h ⊢
        cases hr : runSeq env cs s1 with
        | mk made rest =>
          cases rest with
          | mk r1 s2 =>
            rw [hr] at h
            simp only at h ⊢
            have h1 : s1.hooks = s.hooks := hc0 (h c (List.mem_cons_self _ _))
            have h2 := ih s1 (by
              rw [hr]
              intro c1 hc1
              exact h c1 (List.mem_cons_of_mem _ hc1))
            rw [hr] at h2
            simp only at h2
            rw [h2, h1]

theorem middleware_not_function (env : Env) (store next action : Val) (s : State)
    (hn : typeOf next ≠ "function")
    (h : truthy action = false ∨ hooksOfAction env s.hooks action ≠ .inherited) :
    (middleware env store next action s).calls
      = (runSeq env
          (hookCalls store action (callbacksAt (recordsFor env s action) "pre")) s).1
    ∧ (middleware env store next action s).state
      = (runSeq env
          (hookCalls store action (callbacksAt (recordsFor env s action) "pre")) s).2.2 := by
  have hpre := getTheHooksAt_ok env s action "pre" h
  have hpost := getTheHooksAt_ok env s action "post" h
  generalize callbacksAt (recordsFor env s action) "pre" = P at hpre
  generalize callbacksAt (recordsFor env s action) "post" = Q at hpost
  simp only [middleware, hpre, hpost, callHooks_eq_runSeq]
  cases hr1 : runSeq env (hookCalls store action P) s with
  | mk c1 rest1 =>
    cases rest1 with
    | mk r1 s1 =>
      cases r1 with
      | error e => exact ⟨rfl, rfl⟩
      | ok u =>
        cases next with
        | fn f => simp [typeOf] at hn
        | undefined | null | bool _ | num _ | str _ | sym _ | arr _ | obj _ => exact ⟨rfl, rfl⟩

/-- Claim C16: the middleware writes nothing to the registry. For every state,
store, continuation (function or not) and action, when each call the dispatch
makes leaves `hooks` as it found it, the `hooks` after the dispatch is the
`hooks` before it, with the same keys and the same lists, whether the dispatch
returns or raises. -/
theorem middleware_frame (env : Env) (store next action : Val) (s : State)
    (h : ∀ c ∈ (middleware env store next action s).calls,
      ∀ s1, (env.call c.callee c.args s1).2.hooks = s1.hooks) :
    (middleware env store next action s).state.hooks = s.hooks := by
  by_cases hi : truthy action = false ∨ hooksOfAction env s.hooks action ≠ .inherited
  · by_cases hn : typeOf next = "function"
    · obtain ⟨f, rfl⟩ := (typeOf_function_iff next).1 hn
      obtain ⟨h1, h2, _, _⟩ := middleware_eq_runSeq env store action f s hi
      rw [h1] at h
      rw [h2]
      exact runSeq_frame env _ s h
    · obtain ⟨h1, h2⟩ := middleware_not_function env store next action s hn hi
      rw [h1] at h
      rw [h2]
      exact runSeq_frame env _ s h
  · simp only [not_or, Bool.not_eq_false, not_not] at hi
    rw [middleware_of_inherited env store next action s hi.1 hi.2]

theorem middleware_frame_witness :
    (middleware idleEnv .null (.fn 9) (.obj [("type", .str "A")])
        ⟨[("A", [⟨"pre", 0, 3⟩, ⟨"post", 1, 5⟩]), ("B", [])], 2⟩).state.hooks
      = [("A", [⟨"pre", 0, 3⟩, ⟨"post", 1, 5⟩]), ("B", [])] :=
  middleware_frame idleEnv .null (.fn 9) (.obj [("type", .str "A")])
    ⟨[("A", [⟨"pre", 0, 3⟩, ⟨"post", 1, 5⟩]), ("B", [])], 2⟩ (fun _ _ _ => rfl)

/-! ## Argument shapes of `registerHooks`, and the wrappers -/

theorem registerHooks_invalid (position structTypes : Val) (s : State)
    (h : typeOf position ≠ "string" ∨ typeOf structTypes ≠ "object") :
    registerHooks position structTypes s = (.ok (.bool false), s) := by
  unfold registerHooks
  by_cases hp : typeOf position ≠ "string"
  · rw [if_pos hp]
  · rw [if_neg hp]
    rcases h with h | h
    · exact absurd h hp
    · rw [if_pos h]

/-- Claim C11, at the mapping `null`: for every state the call
`registerHooks('pre', null)` raises a `TypeError` instead of returning
`false` (`typeof null` is `'object'`, so the test lets it through, and
`Object.keys(null)` raises). -/
theorem registerHooks_null_raises (s : State) :
    registerHooks (.str "pre") .null s = (.error .typeError, s) := by
  simp [registerHooks, typeOf, ownEntries]

/-- Claim C13, at the type `"valueOf"`: with hooks registered under `"A"` only,
whatever the functions do, the dispatch of `{type: 'valueOf'}`, a type under
which nothing was ever registered, makes no call at all, not even of the
continuation, and raises a `TypeError`. -/
theorem middleware_valueOf_raises (env : Env) (store : Val) (n : Nat) :
    (middleware env store (.fn n) (.obj [("type", .str "valueOf")])
        ⟨[("A", [⟨"pre", 0, 3⟩])], 1⟩).calls = []
    ∧ (middleware env store (.fn n) (.obj [("type", .str "valueOf")])
        ⟨[("A", [⟨"pre", 0, 3⟩])], 1⟩).result = .error .typeError :=
  ⟨rfl, rfl⟩

/-- An action without a `type` field reads `hooks['undefined']`: with a hook
registered under the type `"undefined"`, the dispatch of `{}` calls it. -/
theorem middleware_missing_type_reads_undefined :
    (middleware idleEnv .null (.fn 9) (.obj [])
        (registerHook (.str "pre") (.str "undefined") (.fn 3) State.init).2).calls
      = [⟨3, [.null, .obj []]⟩, ⟨9, [.obj []]⟩] := rfl

/-- For an action that is `null` or `undefined`, and for a truthy action whose
key names neither a list of `hooks` nor a property of `Object.prototype`, the
dispatch calls the continuation once and nothing else, and returns what the
continuation returned. -/
theorem middleware_no_hooks (env : Env) (hq : Quiet env) (store action : Val) (n : Nat)
    (s : State)
    (h : truthy action = false ∨ hooksOfAction env s.hooks action = .absent) :
    (middleware env store (.fn n) action s).calls = [⟨n, [action]⟩]
    ∧ (middleware env store (.fn n) action s).result = (env.call n [action] s).1 := by
  have hrec : recordsFor env s action = [] := by
    unfold recordsFor
    rcases h with h | h
    · simp [h]
    · simp [h]
  have hi : truthy action = false ∨ hooksOfAction env s.hooks action ≠ .inherited := by
    rcases h with h | h
    · exact Or.inl h
    · exact Or.inr (by rw [h]; exact fun hc => Slot.noConfusion hc)
  have hm := middleware_calls env hq store action n s hi
  rw [hrec] at hm
  simpa [callbacksAt, hookCalls, stateAfterHooks, callHooks] using hm

/-- Claim C15: each convenience wrapper is the general function with the
position fixed: for every state and all arguments `registerPrehook(type, cb)`
gives the completion and the state of `registerHook('pre', type, cb)`,
`registerPosthook` those of `registerHook('post', ...)`, `registerPrehooks`
those of `registerHooks('pre', ...)` and `registerPosthooks` those of
`registerHooks('post', ...)`. -/
theorem wrappers_fix_position (type hook structTypes : Val) (s : State) :
    registerPrehook type hook s = registerHook (.str "pre") type hook s
    ∧ registerPosthook type hook s = registerHook (.str "post") type hook s
    ∧ registerPrehooks structTypes s = registerHooks (.str "pre") structTypes s
    ∧ registerPosthooks structTypes s = registerHooks (.str "post") structTypes s :=
  ⟨rfl, rfl, rfl, rfl⟩

/-! ## The positions of the records -/

theorem lookup_mem {β : Type} (H : List (String × β)) (k : String) (v : β)
    (h : H.lookup k = some v) : (k, v) ∈ H := by
  induction H with
  | nil => simp at h
  | cons e rest ih =>
    obtain ⟨a, b⟩ := e
    by_cases hk : k = a
    · subst hk; simp [List.lookup_cons] at h; simp [h]
    · have h2 : (k == a) = false := by simpa using hk
      simp only [List.lookup_cons, h2] at h
      exact List.mem_cons_of_mem _ (ih h)

theorem allPositions_setOwn (P : String → Prop) (H : Hooks) (k : String)
    (l : List HookRecord) (h : AllPositions P H) (hl : ∀ x ∈ l, P x.position) :
    AllPositions P (setOwn H k l) := by
  intro e he x hx
  simp only [setOwn, List.mem_map] at he
  obtain ⟨e1, he1, rfl⟩ := he
  by_cases hk : e1.1 = k
  · simp only [hk, if_true] at hx
    exact hl x hx
  · simp only [hk, if_false] at hx
    exact h e1 he1 x hx

/-- A call of `registerHook` adds at most a record of the position it is
given. -/
theorem allPositions_registerHook (P : String → Prop) (position type hook : Val) (s : State)
    (h : AllPositions P s.hooks) (hp : ∀ p, position = .str p → P p) :
    AllPositions P (registerHook position type hook s).2.hooks := by
  by_cases hv : typeOf position ≠ "string" ∨ typeOf type ≠ "string" ∨ typeOf hook ≠ "function"
  · rw [registerHook_invalid position type hook s hv]
    exact h
  · simp only [not_or, not_not] at hv
    obtain ⟨p, rfl⟩ := (typeOf_string_iff _).1 hv.1
    obtain ⟨t, rfl⟩ := (typeOf_string_iff _).1 hv.2.1
    obtain ⟨f, rfl⟩ := (typeOf_function_iff _).1 hv.2.2
    have hPp : P p := hp p rfl
    cases hl : s.hooks.lookup t with
    | some l =>
      rw [registerHook_own p t f s l hl]
      apply allPositions_setOwn P s.hooks t _ h
      intro x hx
      rw [List.mem_append, List.mem_singleton] at hx
      rcases hx with hx | hx
      · exact h (t, l) (lookup_mem _ _ _ hl) x hx
      · rw [hx]
        exact hPp
    | none =>
      by_cases hk : t ∈ objectPrototypeKeys
      · rw [registerHook_inherited p t f s hl hk]
        exact h
      · rw [registerHook_absent p t f s hl hk]
        intro e he x hx
        simp only [List.mem_append, List.mem_singleton] at he
        rcases he with he | he
        · exact h e he x hx
        · rw [he] at hx
          simp only [List.mem_singleton] at hx
          rw [hx]
          exact hPp

theorem allPositions_registerEach (P : String → Prop) (position : Val) (type : String)
    (hp : ∀ p, position = .str p → P p) :
    ∀ (hs : List Val) (s : State), AllPositions P s.hooks →
      AllPositions P (registerEach position type hs s).2.hooks := by
  intro hs
  induction hs with
  | nil => intro s h; exact h
  | cons x xs ih =>
    intro s h
    have he : AllPositions P (registerElement position type x s).2.hooks := by
      unfold registerElement
      by_cases hf : typeOf x = "function"
      · rw [if_pos hf]
        exact allPositions_registerHook P position (.str type) x s h hp
      · rw [if_neg hf]
        exact h
    cases hstep : registerElement position type x s with
    | mk r s1 =>
      rw [hstep] at he
      cases r with
      | error e => simpa only [registerEach, hstep] using he
      | ok v =>
        have hr := ih s1 he
        cases hrest : registerEach position type xs s1 with
        | mk r2 s2 =>
          rw [hrest] at hr
          cases r2 with
          | error e => simpa only [registerEach, hstep, hrest] using hr
          | ok ws => simpa only [registerEach, hstep, hrest] using hr

theorem allPositions_registerEntry (P : String → Prop) (position : Val) (type : String)
    (hooks : Val) (result : List (String × Val)) (s : State)
    (hp : ∀ p, position = .str p → P p) (h : AllPositions P s.hooks) :
    AllPositions P (registerEntry position type hooks result s).2.hooks := by
  unfold registerEntry
  by_cases hf : typeOf hooks = "function"
  · rw [if_pos hf]
    have he := allPositions_registerHook P position (.str type) hooks s h hp
    cases hstep : registerHook position (.str type) hooks s with
    | mk r s1 =>
      rw [hstep] at he
      cases r with
      | error e => exact he
      | ok v => exact he
  · rw [if_neg hf]
    cases hooks with
    | arr elems =>
      have he := allPositions_registerEach P position type hp elems s h
      simp only
      cases hstep : registerEach position type elems s with
      | mk r s1 =>
        rw [hstep] at he
        cases r with
        | error e => exact he
        | ok vs => exact he
    | undefined | null | bool _ | num _ | str _ | sym _ | fn _ | obj _ => exact h

theorem allPositions_registerEntries (P : String → Prop) (position : Val)
    (hp : ∀ p, position = .str p → P p) :
    ∀ (entries result : List (String × Val)) (s : State), AllPositions P s.hooks →
      AllPositions P (registerEntries position entries result s).2.hooks := by
  intro entries
  induction entries with
  | nil => intro result s h; exact h
  | cons e rest ih =>
    intro result s h
    obtain ⟨type, hooks⟩ := e
    have he := allPositions_registerEntry P position type hooks result s hp h
    cases hstep : registerEntry position type hooks result s with
    | mk r s1 =>
      rw [hstep] at he
      cases r with
      | error e => simpa only [registerEntries, hstep] using he
      | ok result1 =>
        simp only [registerEntries, hstep]
        exact ih result1 s1 he

theorem allPositions_registerHooks (P : String → Prop) (position structTypes : Val)
    (s : State) (hp : ∀ p, position = .str p → P p) (h : AllPositions P s.hooks) :
    AllPositions P (registerHooks position structTypes s).2.hooks := by
  unfold registerHooks
  by_cases h1 : typeOf position ≠ "string"
  · rw [if_pos h1]
    exact h
  · rw [if_neg h1]
    by_cases h2 : typeOf structTypes ≠ "object"
    · rw [if_pos h2]
      exact h
    · rw [if_neg h2]
      cases hent : ownEntries structTypes with
      | none => exact h
      | some entries =>
        have he := allPositions_registerEntries P position hp entries [] s h
        simp only
        cases hstep : registerEntries position entries [] s with
        | mk r s1 =>
          rw [hstep] at he
          cases r with
          | error e => exact he
          | ok result => exact he

theorem allPositions_unregisterAt (P : String → Prop) (id : Val) (H : Hooks) (k : String)
    (h : AllPositions P H) : AllPositions P (unregisterAt id H k) := by
  unfold unregisterAt
  cases hl : H.lookup k with
  | none => exact h
  | some l =>
    apply allPositions_setOwn P H k _ h
    intro x hx
    exact h (k, l) (lookup_mem _ _ _ hl) x (List.mem_of_mem_filter hx)

theorem allPositions_unregisterHook (P : String → Prop) (id : Val) (s : State)
    (h : AllPositions P s.hooks) : AllPositions P (unregisterHook id s).2.hooks := by
  simp only [unregisterHook]
  generalize ownKeys s.hooks = ks
  generalize s.hooks = H at h
  induction ks generalizing H with
  | nil => exact h
  | cons k ks ih =>
    simp only [List.foldl_cons]
    exact ih _ (allPositions_unregisterAt P id H k h)

theorem preOrPost_of_names (position : Val)
    (h : position = .str "pre" ∨ position = .str "post") :
    ∀ p, position = .str p → PreOrPost p := by
  intro p hp
  rcases h with h | h
  · rw [h] at hp
    simp only [Val.str.injEq] at hp
    exact Or.inl hp.symm
  · rw [h] at hp
    simp only [Val.str.injEq] at hp
    exact Or.inr hp.symm

theorem allPositions_op (op : Op) (s : State) (hop : op.NamesPreOrPost)
    (h : AllPositions PreOrPost s.hooks) :
    AllPositions PreOrPost (op.run s).2.hooks := by
  cases op with
  | registerHook position type hook =>
    exact allPositions_registerHook PreOrPost position type hook s h
      (preOrPost_of_names position hop)
  | registerPrehook type hook =>
    exact allPositions_registerHook PreOrPost (.str "pre") type hook s h
      (preOrPost_of_names _ (Or.inl rfl))
  | registerPosthook type hook =>
    exact allPositions_registerHook PreOrPost (.str "post") type hook s h
      (preOrPost_of_names _ (Or.inr rfl))
  | registerHooks position structTypes =>
    exact allPositions_registerHooks PreOrPost position structTypes s
      (preOrPost_of_names position hop) h
  | registerPrehooks structTypes =>
    exact allPositions_registerHooks PreOrPost (.str "pre") structTypes s
      (preOrPost_of_names _ (Or.inl rfl)) h
  | registerPosthooks structTypes =>
    exact allPositions_registerHooks PreOrPost (.str "post") structTypes s
      (preOrPost_of_names _ (Or.inr rfl)) h
  | unregisterHook id => exact allPositions_unregisterHook PreOrPost id s h
  | clearHooks =>
    show AllPositions PreOrPost (clearHooks s).2.hooks
    rw [clearHooks_hooks]
    intro e he
    simp at he

theorem allPositions_runOps (ops : List Op) :
    ∀ s : State, (∀ op ∈ ops, op.NamesPreOrPost) → AllPositions PreOrPost s.hooks →
      AllPositions PreOrPost (runOps ops s).hooks := by
  induction ops with
  | nil => intro s _ h; exact h
  | cons op ops ih =>
    intro s hops h
    simp only [runOps]
    exact ih _ (fun o ho => hops o (List.mem_cons_of_mem _ ho))
      (allPositions_op op s (hops op (List.mem_cons_self _ _)) h)

/-- Claim C14, refuted as stated: after the single call
`registerHook('before', 'A', f)` in the freshly loaded module, the registry
holds a record whose position is neither `'pre'` nor `'post'`. -/
theorem positions_not_all_pre_or_post :
    ¬ AllPositions PreOrPost
        (runOps [.registerHook (.str "before") (.str "A") (.fn 0)] State.init).hooks := by
  intro h
  have hs : (runOps [.registerHook (.str "before") (.str "A") (.fn 0)] State.init).hooks
      = [("A", [⟨"before", 0, 0⟩])] := by decide
  rw [hs] at h
  have := h ("A", [⟨"before", 0, 0⟩]) (List.mem_singleton.2 rfl) ⟨"before", 0, 0⟩
    (List.mem_singleton.2 rfl)
  unfold PreOrPost at this
  revert this
  decide

/-- Claim C14, amended: in every state reached from the freshly loaded module
by calls of the exported registry functions in which `registerHook` and
`registerHooks` are given the position `'pre'` or `'post'` (the wrappers give
it by themselves), every record of the registry has the position `'pre'` or
`'post'`. -/
theorem positions_pre_or_post (ops : List Op) (h : ∀ op ∈ ops, op.NamesPreOrPost) :
    AllPositions PreOrPost (runOps ops State.init).hooks :=
  allPositions_runOps ops State.init h (by intro e he; simp [State.init] at he)

theorem positions_pre_or_post_witness :
    AllPositions PreOrPost
      (runOps [.registerPrehook (.str "A") (.fn 3),
               .registerHooks (.str "post") (.obj [("A", .arr [.fn 4, .num 1]), ("B", .fn 5)]),
               .unregisterHook (.sym 0)] State.init).hooks :=
  positions_pre_or_post
    [.registerPrehook (.str "A") (.fn 3),
     .registerHooks (.str "post") (.obj [("A", .arr [.fn 4, .num 1]), ("B", .fn 5)]),
     .unregisterHook (.sym 0)]
    (by
      intro op hop
      simp only [List.mem_cons, List.mem_singleton, List.not_mem_nil, or_false] at hop
      rcases hop with rfl | rfl | rfl
      · exact trivial
      · exact Or.inr rfl
      · exact trivial)

/-! ## Records that stay, and records that are never called -/

/-- What every call of `registerHook` with a given position keeps,
`registerHooks` with that position keeps. -/
theorem registerHooks_preserves (Q : Hooks → Prop) (position : Val)
    (hQ : ∀ (type hook : Val) (s : State), Q s.hooks →
      Q (registerHook position type hook s).2.hooks)
    (structTypes : Val) (s : State) (h : Q s.hooks) :
    Q (registerHooks position structTypes s).2.hooks := by
  have hElem : ∀ (type : String) (x : Val) (s : State), Q s.hooks →
      Q (registerElement position type x s).2.hooks := by
    intro type x s h
    unfold registerElement
    by_cases hf : typeOf x = "function"
    · rw [if_pos hf]
      exact hQ (.str type) x s h
    · rw [if_neg hf]
      exact h
  have hEach : ∀ (type : String) (hs : List Val) (s : State), Q s.hooks →
      Q (registerEach position type hs s).2.hooks := by
    intro type hs
    induction hs with
    | nil => intro s h; exact h
    | cons x xs ih =>
      intro s h
      have he := hElem type x s h
      cases hstep : registerElement position type x s with
      | mk r s1 =>
        rw [hstep] at he
        cases r with
        | error e => simpa only [registerEach, hstep] using he
        | ok v =>
          have hr := ih s1 he
          cases hrest : registerEach position type xs s1 with
          | mk r2 s2 =>
            rw [hrest] at hr
            cases r2 with
            | error e => simpa only [registerEach, hstep, hrest] using hr
            | ok ws => simpa only [registerEach, hstep, hrest] using hr
  have hEntry : ∀ (type : String) (hooks : Val) (result : List (String × Val)) (s : State),
      Q s.hooks → Q (registerEntry position type hooks result s).2.hooks := by
    intro type hooks result s h
    unfold registerEntry
    by_cases hf : typeOf hooks = "function"
    · rw [if_pos hf]
      have he := hQ (.str type) hooks s h
      cases hstep : registerHook position (.str type) hooks s with
      | mk r s1 =>
        rw [hstep] at he
        cases r with
        | error e => exact he
        | ok v => exact he
    · rw [if_neg hf]
      cases hooks with
      | arr elems =>
        have he := hEach type elems s h
        simp only
        cases hstep : registerEach position type elems s with
        | mk r s1 =>
          rw [hstep] at he
          cases r with
          | error e => exact he
          | ok vs => exact he
      | undefined | null | bool _ | num _ | str _ | sym _ | fn _ | obj _ => exact h
  have hEntries : ∀ (entries result : List (String × Val)) (s : State),
      Q s.hooks → Q (registerEntries position entries result s).2.hooks := by
    intro entries
    induction entries with
    | nil => intro result s h; exact h
    | cons e rest ih =>
      intro result s h
      obtain ⟨type, hooks⟩ := e
      have he := hEntry type hooks result s h
      cases hstep : registerEntry position type hooks result s with
      | mk r s1 =>
        rw [hstep] at he
        cases r with
        | error e => simpa only [registerEntries, hstep] using he
        | ok result1 =>
          simp only [registerEntries, hstep]
          exact ih result1 s1 he
  unfold registerHooks
  by_cases h1 : typeOf position ≠ "string"
  · rw [if_pos h1]
    exact h
  · rw [if_neg h1]
    by_cases h2 : typeOf structTypes ≠ "object"
    · rw [if_pos h2]
      exact h
    · rw [if_neg h2]
      cases hent : ownEntries structTypes with
      | none => exact h
      | some entries =>
        have he := hEntries entries [] s h
        simp only
        cases hstep : registerEntries position entries [] s with
        | mk r s1 =>
          rw [hstep] at he
          cases r with
          | error e => exact he
          | ok result => exact he

/-- A call of `registerHook` removes no record. -/
theorem holds_registerHook (t : String) (r : HookRecord) (position type hook : Val)
    (s : State) (h : Holds s.hooks t r) :
    Holds (registerHook position type hook s).2.hooks t r := by
  by_cases hv : typeOf position ≠ "string" ∨ typeOf type ≠ "string" ∨ typeOf hook ≠ "function"
  · rw [registerHook_invalid position type hook s hv]
    exact h
  · simp only [not_or, not_not] at hv
    obtain ⟨p, rfl⟩ := (typeOf_string_iff _).1 hv.1
    obtain ⟨t1, rfl⟩ := (typeOf_string_iff _).1 hv.2.1
    obtain ⟨f, rfl⟩ := (typeOf_function_iff _).1 hv.2.2
    obtain ⟨l, hl, hr⟩ := h
    by_cases hk : t1 ∉ objectPrototypeKeys ∨ t1 ∈ ownKeys s.hooks
    · obtain ⟨_, h2, h3⟩ := registerHook_appends p t1 f s hk
      by_cases ht : t = t1
      · subst ht
        rw [hl] at h2
        exact ⟨_, h2, List.mem_append_left _ hr⟩
      · exact ⟨l, by rw [h3 t ht]; exact hl, hr⟩
    · simp only [not_or, not_not] at hk
      have hnone : s.hooks.lookup t1 = none := (lookup_eq_none_iff _ _).2 hk.2
      rw [registerHook_inherited p t1 f s hnone hk.1]
      exact ⟨l, hl, hr⟩

theorem holds_unregisterAt (t : String) (r : HookRecord) (id : Val) (H : Hooks) (k : String)
    (hid : idDiffers r id = true) (h : Holds H t r) : Holds (unregisterAt id H k) t r := by
  obtain ⟨l, hl, hr⟩ := h
  unfold unregisterAt
  cases hk : H.lookup k with
  | none => exact ⟨l, hl, hr⟩
  | some l1 =>
    simp only [setOwn]
    by_cases ht : t = k
    · subst ht
      rw [hl] at hk
      simp only [Option.some.injEq] at hk
      subst hk
      have hmem : t ∈ H.map Prod.fst := by
        by_contra hc
        rw [(lookup_eq_none_iff _ _).2 hc] at hl
        exact Option.noConfusion hl
      refine ⟨_, lookup_replace_self H t _ hmem, ?_⟩
      rw [List.mem_filter]
      exact ⟨hr, hid⟩
    · exact ⟨l, by rw [lookup_replace_ne H k t _ ht]; exact hl, hr⟩

theorem holds_unregisterHook (t : String) (r : HookRecord) (id : Val) (s : State)
    (hid : idDiffers r id = true) (h : Holds s.hooks t r) :
    Holds (unregisterHook id s).2.hooks t r := by
  simp only [unregisterHook]
  generalize ownKeys s.hooks = ks
  generalize s.hooks = H at h
  induction ks generalizing H with
  | nil => exact h
  | cons k ks ih =>
    simp only [List.foldl_cons]
    exact ih _ (holds_unregisterAt t r id H k hid h)

/-- A record stays in its list through every call of a registry function but
`clearHooks()` and `unregisterHook` with its own identity. -/
theorem holds_op (t : String) (r : HookRecord) (op : Op) (s : State)
    (h : Holds s.hooks t r) (h1 : op ≠ .clearHooks) (h2 : op ≠ .unregisterHook (.sym r.id)) :
    Holds (op.run s).2.hooks t r := by
  cases op with
  | registerHook position type hook => exact holds_registerHook t r position type hook s h
  | registerPrehook type hook => exact holds_registerHook t r (.str "pre") type hook s h
  | registerPosthook type hook => exact holds_registerHook t r (.str "post") type hook s h
  | registerHooks position structTypes =>
    exact registerHooks_preserves (fun H => Holds H t r) position
      (fun type hook s0 h0 => holds_registerHook t r position type hook s0 h0) structTypes s h
  | registerPrehooks structTypes =>
    exact registerHooks_preserves (fun H => Holds H t r) (.str "pre")
      (fun type hook s0 h0 => holds_registerHook t r (.str "pre") type hook s0 h0)
      structTypes s h
  | registerPosthooks structTypes =>
    exact registerHooks_preserves (fun H => Holds H t r) (.str "post")
      (fun type hook s0 h0 => holds_registerHook t r (.str "post") type hook s0 h0)
      structTypes s h
  | unregisterHook id =>
    apply holds_unregisterHook t r id s _ h
    cases id with
    | sym uid =>
      simp only [idDiffers, bne_iff_ne, ne_eq]
      intro hc
      exact h2 (by rw [hc])
    | undefined | null | bool _ | num _ | str _ | fn _ | arr _ | obj _ => rfl
  | clearHooks => exact absurd rfl h1

theorem mem_hookCalls (store action : Val) (l : List HookRecord) (position : String)
    (c : Call) (h : c ∈ hookCalls store action (callbacksAt l position)) :
    ∃ x ∈ l, x.position = position ∧ c = ⟨x.hook, [store, action]⟩ := by
  simp only [hookCalls, callbacksAt, List.map_map, List.mem_map, List.mem_filter,
    decide_eq_true_eq, Function.comp] at h
  obtain ⟨x, ⟨hx, hp⟩, rfl⟩ := h
  exact ⟨x, hx, hp, rfl⟩

theorem middleware_calls_initial (env : Env) (store action : Val) (n : Nat) (s : State) :
    ∃ rest, (middleware env store (.fn n) action s).calls ++ rest
      = normalCalls env store n action s := by
  by_cases h : truthy action = false ∨ hooksOfAction env s.hooks action ≠ .inherited
  · obtain ⟨h1, _, _, _⟩ := middleware_eq_runSeq env store action n s h
    obtain ⟨hp, _⟩ := runSeq_made env (normalCalls env store n action s) s
    rw [← h1] at hp
    exact hp
  · simp only [not_or, Bool.not_eq_false, not_not] at h
    rw [middleware_of_inherited env store (.fn n) action s h.1 h.2]
    exact ⟨_, rfl⟩

/-- Every call a dispatch makes is the call of the continuation or the call of
the hook of a record stored for the action with position `'pre'` or
`'post'`. -/
theorem middleware_calls_pre_or_post (env : Env) (store action : Val) (n : Nat) (s : State)
    (c : Call) (hc : c ∈ (middleware env store (.fn n) action s).calls) :
    c = ⟨n, [action]⟩
    ∨ ∃ x ∈ recordsFor env s action, PreOrPost x.position ∧ c = ⟨x.hook, [store, action]⟩ := by
  obtain ⟨rest, hrest⟩ := middleware_calls_initial env store action n s
  have hmem : c ∈ normalCalls env store n action s := by
    rw [← hrest]
    exact List.mem_append_left _ hc
  simp only [normalCalls, List.mem_append, List.mem_singleton] at hmem
  rcases hmem with (hmem | hmem) | hmem
  · obtain ⟨x, hx, hp, rfl⟩ := mem_hookCalls store action _ _ c hmem
    exact Or.inr ⟨x, hx, Or.inl hp, rfl⟩
  · exact Or.inl hmem
  · obtain ⟨x, hx, hp, rfl⟩ := mem_hookCalls store action _ _ c hmem
    exact Or.inr ⟨x, hx, Or.inr hp, rfl⟩

/-- The completion of `registerHook` does not depend on the position string it
is given. -/
theorem registerHook_completion_position (p q : String) (type hook : Val) (s : State) :
    (registerHook (.str p) type hook s).1 = (registerHook (.str q) type hook s).1 := by
  by_cases hv : typeOf type ≠ "string" ∨ typeOf hook ≠ "function"
  · rw [registerHook_invalid (.str p) type hook s (Or.inr hv),
      registerHook_invalid (.str q) type hook s (Or.inr hv)]
  · simp only [not_or, not_not] at hv
    obtain ⟨t, rfl⟩ := (typeOf_string_iff _).1 hv.1
    obtain ⟨f, rfl⟩ := (typeOf_function_iff _).1 hv.2
    cases hl : s.hooks.lookup t with
    | some l => rw [registerHook_own p t f s l hl, registerHook_own q t f s l hl]
    | none =>
      by_cases hk : t ∈ objectPrototypeKeys
      · rw [registerHook_inherited p t f s hl hk, registerHook_inherited q t f s hl hk]
      · rw [registerHook_absent p t f s hl hk, registerHook_absent q t f s hl hk]

/-- What holds of a position string `p` other than `'pre'` and `'post'`:
`registerHook` completes exactly as it does with `'pre'`; on a type on which
it registers at all (one that has a list, or is no name of `Object.prototype`)
it returns the fresh identity and stores the record with position `p`; every
call that any dispatch makes is the call of the continuation or of a record
whose position is not `p`, so the record is never called; and a record stays
in its list through every call of a registry function other than
`clearHooks()` and `unregisterHook` with its identity. -/
theorem odd_position_hook (p : String) (hp : ¬ PreOrPost p) :
    (∀ (type hook : Val) (s : State),
      (registerHook (.str p) type hook s).1 = (registerHook (.str "pre") type hook s).1)
    ∧ (∀ (t : String) (f : Nat) (s : State),
        (t ∉ objectPrototypeKeys ∨ t ∈ ownKeys s.hooks) →
        (registerHook (.str p) (.str t) (.fn f) s).1 = .ok (.sym s.symbols)
        ∧ Holds (registerHook (.str p) (.str t) (.fn f) s).2.hooks t ⟨p, s.symbols, f⟩)
    ∧ (∀ (env : Env) (store action : Val) (n : Nat) (s : State),
        ∀ c ∈ (middleware env store (.fn n) action s).calls,
          c = ⟨n, [action]⟩
          ∨ ∃ x ∈ recordsFor env s action, x.position ≠ p ∧ c = ⟨x.hook, [store, action]⟩)
    ∧ (∀ (t : String) (r : HookRecord) (op : Op) (s : State),
        Holds s.hooks t r → op ≠ .clearHooks → op ≠ .unregisterHook (.sym r.id) →
        Holds (op.run s).2.hooks t r) := by
  refine ⟨?_, ?_, ?_, ?_⟩
  · intro type hook s
    exact registerHook_completion_position p "pre" type hook s
  · intro t f s hk
    obtain ⟨h1, h2, _⟩ := registerHook_appends p t f s hk
    exact ⟨h1, _, h2, by simp⟩
  · intro env store action n s c hc
    rcases middleware_calls_pre_or_post env store action n s c hc with h | ⟨x, hx, hpos, rfl⟩
    · exact Or.inl h
    · refine Or.inr ⟨x, hx, ?_, rfl⟩
      intro hxp
      rw [hxp] at hpos
      exact hp hpos
  · intro t r op s h h1 h2
    exact holds_op t r op s h h1 h2

theorem odd_position_hook_witness :
    ¬ PreOrPost "before"
    ∧ (registerHook (.str "before") (.str "A") (.fn 3) State.init).1 = .ok (.sym 0)
    ∧ Holds (registerHook (.str "before") (.str "A") (.fn 3) State.init).2.hooks "A"
        ⟨"before", 0, 3⟩
    ∧ (middleware idleEnv .null (.fn 9) (.obj [("type", .str "A")])
        (registerHook (.str "before") (.str "A") (.fn 3) State.init).2).calls
      = [⟨9, [.obj [("type", .str "A")]]⟩] :=
  have hp : ¬ PreOrPost "before" := by unfold PreOrPost; decide
  have h := (odd_position_hook "before" hp).2.1 "A" 3 State.init (Or.inl (by decide))
  ⟨hp, h.1, h.2, rfl⟩

/-- Claim C18, at the type `"toString"`: in the freshly loaded module the call
`registerHook('before', 'toString', f)`, with a position string other than
`'pre'` and `'post'`, is not accepted: it raises a `TypeError` (the read
`hooks['toString']` finds the inherited function, which has no `push`),
returns no identity and stores no record. -/
theorem registerHook_before_toString_raises :
    registerHook (.str "before") (.str "toString") (.fn 3) State.init
      = (.error .typeError, ⟨[], 1⟩)
    ∧ ¬ PreOrPost "before"
    ∧ ¬ Holds (registerHook (.str "before") (.str "toString") (.fn 3) State.init).2.hooks
        "toString" ⟨"before", 0, 3⟩ := by
  refine ⟨rfl, by unfold PreOrPost; decide, ?_⟩
  rintro ⟨l, hl, _⟩
  have h0 : (registerHook (.str "before") (.str "toString") (.fn 3) State.init).2.hooks
      = [] := rfl
  rw [h0] at hl
  simp at hl

end HookMiddleware
